import Mathlib

/-!
# Verification of the GitHub profile generator's aggregation pipeline

Shallow embedding of the two Python pipelines of this repository:

* `Gen`  embeds `src/generator.py`   (`GitHubProfileGenerator`), the
  "neofetch"-style pipeline;
* `Prev` embeds `src/generator_prev.py` (`GitHubLanguageAnalyzer`), the
  "terminal window" pipeline.

Modelling conventions:

* Python machine integers are `Nat`/`Int`; Python floats are modelled as
  exact rationals `ℚ` (the float expressions in the source are pure
  arithmetic on API integers, and `int(x)` on a nonnegative value is
  rational floor, on a negative value truncation toward zero);
* Python dicts keyed by language name (`defaultdict` accumulators, which
  preserve insertion order) are modelled as a pair of an insertion-ordered
  key list and a total function `String → Stats` that is the default value
  off the key list;
* `requests` calls and GraphQL responses are modelled at the boundary: a
  fetched slice is an `Except String _` value, `Except.error` standing for
  a transport failure, a non-200 status, a GraphQL error list, or a
  malformed body — `generator.py` treats all of these identically
  (warning + `continue`), `generator_prev.py` raises on all of them;
* presentation-only bookkeeping that no aggregation logic ever reads
  (the language → display-color tables, `repo_details`, `yearly_stats`)
  is omitted from the accumulators;
* Python `str` values handled by the fixed-width formatter are modelled
  as `List Char` (Python length and slicing are code-point based);
* `datetime` instants are modelled at second granularity as lexicographic
  pairs (calendar year, second within the year); this is the granularity
  of every ISO string the program itself produces.
-/

namespace Agg

/-- A Python `defaultdict` keyed by language name: an insertion-ordered
key list plus a total lookup function that returns the default entry for
keys not on the list. -/
structure Table (σ : Type) where
  keys : List String
  stats : String → σ

/-- A `defaultdict` item access followed by augmented assignment: touching
key `n` inserts it at the end of the key order on first use and rewrites
its entry through `f`. -/
def Table.update {σ : Type} (t : Table σ) (n : String) (f : σ → σ) : Table σ :=
  { keys := if n ∈ t.keys then t.keys else t.keys ++ [n]
    stats := fun L => if L = n then f (t.stats L) else t.stats L }

/-- A fresh `defaultdict` with default entry `d`. -/
def emptyTable {σ : Type} (d : σ) : Table σ := ⟨[], fun _ => d⟩

/-- The successfully fetched values among a sequence of fallible fetches,
in order. -/
def successes {α : Type} : List (Except String α) → List α
  | [] => []
  | Except.error _ :: ys => successes ys
  | Except.ok y :: ys => y :: successes ys

end Agg

namespace Gen

/-- One `(language, bytes)` edge of `repository.languages.edges` as read by
`generator.py` (`node.name`, `edge.size`; an absent or empty name is the
falsy value the source skips, an absent size is `0`). -/
structure Edge where
  name : String
  size : Nat
  deriving Repr, DecidableEq

/-- One repository-year record of `commitContributionsByRepository` as read
by `generator.py`: the primary language name (`none` for a null
`primaryLanguage`), the language/byte edges, and
`contributions.totalCount`. -/
structure Record where
  primaryLanguage : Option String
  edges : List Edge
  commitCount : Nat
  deriving Repr, DecidableEq

/-- The per-language accumulator of `generator.py`
(`language_stats[lang]`): commits, additions, deletions.  The `color`
entry is presentation-only and never read back; it is omitted. -/
structure Stats where
  commits : Nat
  additions : Nat
  deletions : Nat
  deriving Repr, DecidableEq

def Stats.start : Stats := ⟨0, 0, 0⟩

/-- The `language_stats` defaultdict of `generator.py`. -/
abbrev Acc := Agg.Table Stats

def emptyAcc : Acc := Agg.emptyTable Stats.start

/-- From `generator.py` lines 484-490: primary-language attribution.  A truthy
`primary_lang.get('name')` receives the record's full raw commit count. -/
def primaryStep (r : Record) (acc : Acc) : Acc :=
  match r.primaryLanguage with
  | none => acc
  | some n =>
      if n = "" then acc
      else acc.update n (fun s => { s with commits := s.commits + r.commitCount })

/-- From `generator.py` line 495: `total_size` is the sum of the declared edge
sizes (summing only truthy sizes equals the plain sum). -/
def totalSize (r : Record) : Nat := (r.edges.map Edge.size).sum

/-- Models `int(commit_count * lang_proportion)` in exact arithmetic:
`⌊c · size / total⌋`, which is natural division. -/
def edgeWeighted (c T : Nat) (e : Edge) : Nat := c * e.size / T

/-- From `generator.py` lines 497-516: one iteration of the weighted loop.
A falsy language name is skipped; a language is touched only when its
truncated weighted commit count is positive, and then also receives the
byte-size line estimates `int(size*0.3)` and `int(size*0.1)`. -/
def edgeStep (c T : Nat) (acc : Acc) (e : Edge) : Acc :=
  if e.name = "" then acc
  else if 0 < edgeWeighted c T e then
    acc.update e.name (fun s =>
      { commits := s.commits + edgeWeighted c T e
        additions := s.additions + e.size * 3 / 10
        deletions := s.deletions + e.size / 10 })
  else acc

/-- From `generator.py` lines 492-516: byte-proportional (weighted)
attribution, guarded by a nonempty edge list with positive total size. -/
def weightedStep (r : Record) (acc : Acc) : Acc :=
  if 0 < totalSize r then r.edges.foldl (edgeStep r.commitCount (totalSize r)) acc
  else acc

/-- From `generator.py` lines 473-516: processing of one repository-year
record: records with zero commits are skipped, otherwise primary
attribution then weighted attribution. -/
def processRecord (acc : Acc) (r : Record) : Acc :=
  if r.commitCount = 0 then acc else weightedStep r (primaryStep r acc)

end Gen

namespace Agg

/-- Insertion step of a stable descending sort: `x` is placed before the
first element whose key is `≤ key x`, hence after every earlier element
with a strictly greater key and before every element with an equal key
that came later in the input. -/
def insertDesc {α β : Type} [LinearOrder β] (key : α → β) (x : α) : List α → List α
  | [] => [x]
  | y :: l => if key y ≤ key x then x :: y :: l else y :: insertDesc key x l

/-- Python's `sorted(items, key=key, reverse=True)`: stable, descending by
`key`.  (Any stable descending sort computes the same list; insertion
sort is used as the executable realisation.) -/
def sortDesc {α β : Type} [LinearOrder β] (key : α → β) : List α → List α
  | [] => []
  | x :: l => insertDesc key x (sortDesc key l)

end Agg

namespace Gen

/-- The fields of the basic-user-info response that the aggregation reads. -/
structure UserInfo where
  login : String
  deriving Repr, DecidableEq

/-- One successfully fetched and well-formed year slice of
`contributionsCollection`: the year's `totalCommitContributions` and its
`commitContributionsByRepository` records. -/
structure YearSlice where
  totalCommitContributions : Nat
  records : List Record
  deriving Repr, DecidableEq

/-- From `generator.py` lines 461-516 for one fetched year: the year's
`totalCommitContributions` is added to the running total and every record
is folded into the language accumulator. -/
def processYear (st : Nat × Acc) (y : YearSlice) : Nat × Acc :=
  (st.1 + y.totalCommitContributions, y.records.foldl processRecord st.2)

/-- From `generator.py` lines 430-516, the per-year loop: a failed or
malformed year response (non-200 status, GraphQL error list, missing
user/collection) prints a warning and is skipped via `continue`; a
successful year is folded in. -/
def foldYears : List (Except String YearSlice) → Nat × Acc → Nat × Acc
  | [], st => st
  | Except.error _ :: ys, st => foldYears ys st
  | Except.ok y :: ys, st => foldYears ys (processYear st y)

/-- From `get_user_data_multi_year`: a failing basic-user-info query raises
(aborting the run); otherwise the per-year loop runs with its per-year
skip behaviour and the aggregates are returned. -/
def getUserDataMultiYear (userResp : Except String UserInfo)
    (years : List (Except String YearSlice)) : Except String (UserInfo × Nat × Acc) :=
  match userResp with
  | Except.error e => Except.error e
  | Except.ok u => Except.ok (u, foldYears years (0, emptyAcc))

/-- From `main` of `generator.py`: any exception escaping the pipeline is
caught and turns into exit code 1, otherwise the run exits 0. -/
def mainExit (userResp : Except String UserInfo)
    (years : List (Except String YearSlice)) : Nat :=
  match getUserDataMultiYear userResp years with
  | Except.ok _ => 0
  | Except.error _ => 1

/-- One entry of the mapping returned by
`calculate_language_percentages`. -/
structure PercEntry where
  name : String
  percentage : ℚ
  commits : Nat
  additions : Nat
  deletions : Nat
  net : Int
  deriving Repr, DecidableEq

/-- From `calculate_language_percentages` line 530: the denominator is the sum
of the (merged) per-language commit buckets. -/
def bucketTotal (acc : Acc) : Nat := (acc.keys.map (fun k => (acc.stats k).commits)).sum

/-- The unsorted entry list of `calculate_language_percentages` (lines
534-544), in accumulation order: one entry per language with a positive
bucket, `percentage = commits / Σ buckets * 100`. -/
def percEntries (acc : Acc) : List PercEntry :=
  acc.keys.filterMap fun k =>
    let s := acc.stats k
    if 0 < s.commits then
      some ⟨k, (s.commits : ℚ) / (bucketTotal acc : ℚ) * 100, s.commits, s.additions,
        s.deletions, (s.additions : Int) - (s.deletions : Int)⟩
    else none

/-- From `calculate_language_percentages` (`generator.py` lines 528-547): empty
on zero bucket total, else the entries sorted by percentage descending
(Python `sorted` with `reverse=True`, stable). -/
def calculateLanguagePercentages (acc : Acc) : List PercEntry :=
  if bucketTotal acc = 0 then []
  else Agg.sortDesc PercEntry.percentage (percEntries acc)

end Gen

namespace Prev

/-- One `(language, bytes)` edge as read by
`generator_prev.py` (`lang_edge["node"]["name"]`, `lang_edge["size"]`). -/
structure Edge where
  name : String
  size : Nat
  deriving Repr, DecidableEq

/-- One repository-year record of `commitContributionsByRepository` as
read by `analyze_languages`: repository identity and flags, the primary
language (`none` for null), the language edges together with the API's
`languages.totalSize` field, the `contributions.nodes` commit counts, and
the (possibly defaulted) `line_stats` totals.  `lineNet` is carried as
supplied (`net_lines`); the fetcher computes it as additions − deletions. -/
structure Record where
  nameWithOwner : String
  isFork : Bool
  isPrivate : Bool
  primaryLanguage : Option String
  edges : List Edge
  totalSize : Nat
  commitCounts : List Nat
  lineAdd : Nat
  lineDel : Nat
  lineNet : Int
  deriving Repr, DecidableEq

/-- Models `repo_commits = sum(contrib["commitCount"] for contrib in ...)`. -/
def repoCommits (r : Record) : Nat := r.commitCounts.sum

/-- The per-language accumulator of `analyze_languages`
(`language_stats[lang]`).  `repositories` is the repository set, modelled
as a duplicate-free insertion list (only its size is ever reported);
`color` and `repo_details` are presentation-only and omitted. -/
structure Stats where
  total_commits : Nat
  weighted_commits : ℚ
  repositories : List String
  total_bytes : Nat
  total_additions : ℚ
  total_deletions : ℚ
  net_lines : ℚ
  deriving Repr, DecidableEq

def Stats.start : Stats := ⟨0, 0, [], 0, 0, 0, 0⟩

/-- Python `set.add`. -/
def addRepo (l : List String) (n : String) : List String :=
  if n ∈ l then l else l ++ [n]

/-- The run-level accumulators of `analyze_languages` alongside the
language table. -/
structure Acc where
  langs : Agg.Table Stats
  total_commits : Nat
  total_additions : Nat
  total_deletions : Nat
  total_repositories : Nat

def emptyAcc : Acc := ⟨Agg.emptyTable Stats.start, 0, 0, 0, 0⟩

/-- The caller-supplied filter settings of `analyze_languages`. -/
structure Config where
  includeForks : Bool
  includePrivate : Bool
  minCommits : Nat
  deriving Repr, DecidableEq

/-- From `generator_prev.py` lines 619-629: a record survives unless it is a
fork with forks excluded, private with private excluded, or below the
minimum-commit threshold. -/
def passes (cfg : Config) (r : Record) : Bool :=
  (cfg.includeForks || !r.isFork) && (cfg.includePrivate || !r.isPrivate) &&
    decide (cfg.minCommits ≤ repoCommits r)

/-- From `generator_prev.py` lines 631-634: run-level totals accumulate the raw
per-repository numbers of each surviving record. -/
def runTotalsStep (r : Record) (acc : Acc) : Acc :=
  { acc with
    total_repositories := acc.total_repositories + 1
    total_commits := acc.total_commits + repoCommits r
    total_additions := acc.total_additions + r.lineAdd
    total_deletions := acc.total_deletions + r.lineDel }

/-- From `generator_prev.py` lines 641-655: primary-language attribution adds
the record's raw commit count to the unweighted bucket and the raw line
totals to the language's line fields. -/
def primaryStep (r : Record) (acc : Acc) : Acc :=
  match r.primaryLanguage with
  | none => acc
  | some n =>
      { acc with
        langs := acc.langs.update n (fun s =>
          { s with
            total_commits := s.total_commits + repoCommits r
            repositories := addRepo s.repositories r.nameWithOwner
            total_additions := s.total_additions + (r.lineAdd : ℚ)
            total_deletions := s.total_deletions + (r.lineDel : ℚ)
            net_lines := s.net_lines + (r.lineNet : ℚ) }) }

/-- Models `lang_percentage = lang_size / total_repo_size if total_repo_size > 0
else 0`, against the API's `totalSize` field. -/
def langShare (r : Record) (e : Edge) : ℚ :=
  if 0 < r.totalSize then (e.size : ℚ) / (r.totalSize : ℚ) else 0

/-- From `generator_prev.py` lines 661-680: the table rewrite performed by one
iteration of the weighted loop; every declared language receives
`share × repo_commits` weighted commits, its byte size, and
share-weighted line totals. -/
def edgeStepT (r : Record) (t : Agg.Table Stats) (e : Edge) : Agg.Table Stats :=
  t.update e.name (fun s =>
    { s with
      weighted_commits := s.weighted_commits + (repoCommits r : ℚ) * langShare r e
      repositories := addRepo s.repositories r.nameWithOwner
      total_bytes := s.total_bytes + e.size
      total_additions := s.total_additions + (r.lineAdd : ℚ) * langShare r e
      total_deletions := s.total_deletions + (r.lineDel : ℚ) * langShare r e
      net_lines := s.net_lines + (r.lineNet : ℚ) * langShare r e })

/-- One iteration of the weighted loop on the full accumulator state (the
loop touches only the language table). -/
def edgeStep (r : Record) (acc : Acc) (e : Edge) : Acc :=
  { acc with langs := edgeStepT r acc.langs e }

/-- From `generator_prev.py` lines 657-703: byte-proportional (weighted)
attribution over all declared edges. -/
def weightedStep (r : Record) (acc : Acc) : Acc :=
  r.edges.foldl (edgeStep r) acc

/-- From `generator_prev.py` lines 612-717: processing of one record — filter,
run-level totals, primary attribution, weighted attribution. -/
def processRecord (cfg : Config) (acc : Acc) (r : Record) : Acc :=
  if passes cfg r then weightedStep r (primaryStep r (runTotalsStep r acc)) else acc

/-- The accumulation loop of `analyze_languages` over all records. -/
def analyze (cfg : Config) (records : List Record) : Acc :=
  records.foldl (processRecord cfg) emptyAcc

/-- Python `int(x)` on a rational: truncation toward zero. -/
def pyInt (q : ℚ) : Int := q.num / (q.den : Int)

/-- One entry of the final `languages` mapping of `analyze_languages`
(lines 719-736), keyed by language name. -/
structure FinalEntry where
  name : String
  total_commits : Nat
  weighted_commits : ℚ
  commit_percentage : ℚ
  weighted_percentage : ℚ
  repository_count : Nat
  total_bytes : Nat
  total_additions : Int
  total_deletions : Int
  net_lines : Int
  deriving Repr, DecidableEq

/-- From `generator_prev.py` lines 720-736: the final per-language entry built
from the accumulated stats and the run-level totals. -/
def mkFinalEntry (acc : Acc) (k : String) : FinalEntry :=
  let s := acc.langs.stats k
  { name := k
    total_commits := s.total_commits
    weighted_commits := s.weighted_commits
    commit_percentage :=
      if 0 < acc.total_commits then (s.total_commits : ℚ) / (acc.total_commits : ℚ) * 100 else 0
    weighted_percentage :=
      if 0 < acc.total_commits then s.weighted_commits / (acc.total_commits : ℚ) * 100 else 0
    repository_count := s.repositories.length
    total_bytes := s.total_bytes
    total_additions := pyInt s.total_additions
    total_deletions := pyInt s.total_deletions
    net_lines := pyInt s.net_lines }

/-- From `generator_prev.py` line 762: the final `languages` mapping, sorted by
`weighted_commits` descending with Python's stable `sorted`. -/
def finalLanguages (acc : Acc) : List FinalEntry :=
  Agg.sortDesc FinalEntry.weighted_commits (acc.langs.keys.map (mkFinalEntry acc))

/-- One year slice as returned by
`get_user_contributions_single_year` (the fields the aggregation reads). -/
structure YearData where
  totalCommitContributions : Nat
  hasAny : Bool
  records : List Record
  deriving Repr, DecidableEq

/-- The per-year loop of `get_user_contributions_range`
(`generator_prev.py` lines 380-426): each year is fetched through
`_make_graphql_request`, which *raises* on a non-200 status or a GraphQL
error list, and the loop installs no handler — the first failing year
slice aborts the whole fetch. -/
def fetchYears : List (Except String YearData) → Except String (List YearData)
  | [] => Except.ok []
  | Except.error e :: _ => Except.error e
  | Except.ok y :: ys => (fetchYears ys).map (y :: ·)

/-- From `main` of `generator_prev.py`: an exception escaping the fetch is
caught at top level and turns into exit code 1. -/
def runExit (slices : List (Except String YearData)) : Nat :=
  match fetchYears slices with
  | Except.ok _ => 0
  | Except.error _ => 1

end Prev

namespace Fmt

/-- Python `s[:m]` on a code-point list, including the negative-bound
rule (`s[:-k]` drops the last `k` code points, clamping at empty). -/
def pySliceTo (s : List Char) (m : Int) : List Char :=
  if 0 ≤ m then s.take m.toNat else s.take (s.length - m.natAbs)

/-- From `GitHubProfileGenerator.format_line` (`generator.py` lines 213-232),
on code-point lists: header keys are padded with em dashes; a key/value
pair is rendered as `". key:" ++ dots ++ " value"`, and when fewer than
one dot would remain the value is truncated to
`total_width - len(key_part) - 1 - 3` code points with `"..."` appended
and a single dot is used. -/
def formatLine (key value : List Char) (totalWidth : Nat := 68)
    (separator : List Char := [':']) : List Char :=
  if key.head? = some '—' ∨ key.head? = some '-' then
    key ++ List.replicate (totalWidth - key.length) '—'
  else
    let keyPart := '.' :: ' ' :: (key ++ separator)
    let valuePart := ' ' :: value
    let dotsNeeded : Int := (totalWidth : Int) - keyPart.length - valuePart.length
    if dotsNeeded < 1 then
      let availableForValue : Int := (totalWidth : Int) - keyPart.length - 1
      keyPart ++ '.' :: ' ' :: (pySliceTo value (availableForValue - 3) ++ ['.', '.', '.'])
    else
      keyPart ++ List.replicate dotsNeeded.toNat '.' ++ valuePart

end Fmt

namespace YearRanges

/-- A `datetime` instant at second granularity: the calendar year paired
lexicographically with the second-within-year. -/
abbrev Instant := Lex (Int × Nat)

def mkI (y : Int) (s : Nat) : Instant := toLex (y, s)

/-- Calendar year of an instant. -/
def yr (t : Instant) : Int := (ofLex t).1

/-- Second-within-year of an instant. -/
def sc (t : Instant) : Nat := (ofLex t).2

/-- Proleptic Gregorian leap-year rule used by Python's `datetime`. -/
def isLeap (y : Int) : Bool := (y % 4 == 0 && y % 100 != 0) || y % 400 == 0

/-- Number of seconds in calendar year `y`. -/
def yearLen (y : Int) : Nat := (if isLeap y then 366 else 365) * 86400

/-- Models `datetime(year, 1, 1)`: the first second of the year. -/
def yearStartI (y : Int) : Instant := mkI y 0

/-- Models `datetime(year, 12, 31, 23, 59, 59)`: the last second of the year. -/
def yearEndI (y : Int) : Instant := mkI y (yearLen y - 1)

/-- An instant is well formed when its second lies inside its year. -/
abbrev wf (t : Instant) : Prop := sc t < yearLen (yr t)

/-- The `while current_start < end_dt` loop of `_generate_year_ranges`
(`generator_prev.py` lines 212-228), with explicit fuel: each iteration
emits `(cur, min(end-of-cur-year, end))` and restarts at the next
January 1. -/
def genAux (e : Instant) : Nat → Instant → List (Instant × Instant)
  | 0, _ => []
  | fuel + 1, cur =>
      if cur < e then
        (cur, min (yearEndI (yr cur)) e) :: genAux e fuel (yearStartI (yr cur + 1))
      else []

/-- From `_generate_year_ranges`: the fuel bound `(yr e - yr s) + 1` dominates
the iteration count, since each iteration advances the year and stops
once the cursor passes `e`. -/
def generateYearRanges (s e : Instant) : List (Instant × Instant) :=
  genAux e ((yr e - yr s).toNat + 1) s

/-- The consecutive integers from `a` to `b` (empty when `b < a`). -/
def intRange (a b : Int) : List Int :=
  (List.range (b - a + 1).toNat).map (fun i : Nat => a + (i : Int))

/-- The last calendar year containing an instant of the half-open window
`[s, e)`: year `yr e`, except when `e` is the very first second of its
year. -/
def lastYear (e : Instant) : Int := if sc e = 0 then yr e - 1 else yr e

end YearRanges

/-!
## Helper lemmas

General lemmas about the `defaultdict` table, the stable sort, and list
folds, shared by the per-claim theorems.
-/

namespace Agg

theorem stats_update {σ : Type} (t : Table σ) (n : String) (f : σ → σ) (L : String) :
    (t.update n f).stats L = if L = n then f (t.stats L) else t.stats L := rfl

/-- Folding single-key table updates: the projection `g` of language `L`
grows by the sum of the increments `d` of exactly the fold elements named
`L`. -/
theorem foldl_stats_delta {σ ι M : Type} [AddCommMonoid M]
    (step : Table σ → ι → Table σ) (name : ι → String) (d : ι → M) (g : σ → M)
    (h : ∀ t e L, g ((step t e).stats L) = g (t.stats L) + (if name e = L then d e else 0)) :
    ∀ (l : List ι) (t : Table σ) (L : String),
      g ((l.foldl step t).stats L)
        = g (t.stats L) + ((l.filter (fun e => decide (name e = L))).map d).sum
  | [], t, L => by simp
  | e :: l, t, L => by
      rw [List.foldl_cons, foldl_stats_delta step name d g h l (step t e) L, h t e L,
        List.filter_cons]
      by_cases hn : name e = L
      · simp [hn, add_assoc]
      · simp [hn]

/-- In a list whose names are duplicate-free, filtering for the name of a
member isolates that member. -/
theorem filter_name_eq_of_nodup {ι : Type} (name : ι → String) :
    ∀ (l : List ι) (e : ι), e ∈ l → (l.map name).Nodup →
      l.filter (fun x => decide (name x = name e)) = [e]
  | x :: l, e, he, hnd => by
      rw [List.map_cons, List.nodup_cons] at hnd
      rcases List.mem_cons.mp he with rfl | hel
      · rw [List.filter_cons, if_pos (by simp)]
        have : ∀ y ∈ l, ¬ name y = name e := by
          intro y hy hne
          exact hnd.1 (hne ▸ List.mem_map_of_mem name hy)
        simp only [List.cons.injEq, true_and]
        rw [List.filter_eq_nil_iff]
        intro y hy
        simpa using this y hy
      · have hne : ¬ name x = name e := by
          intro hne
          exact hnd.1 (hne ▸ List.mem_map_of_mem name hel)
        rw [List.filter_cons, if_neg (by simpa using hne)]
        exact filter_name_eq_of_nodup name l e hel hnd.2

theorem mem_insertDesc {α β : Type} [LinearOrder β] (key : α → β) (x a : α) :
    ∀ l : List α, a ∈ insertDesc key x l ↔ a = x ∨ a ∈ l
  | [] => by simp [insertDesc]
  | y :: l => by
      rw [insertDesc]
      by_cases h : key y ≤ key x
      · simp [h]
      · rw [if_neg h]
        simp only [List.mem_cons, mem_insertDesc key x a l]
        tauto

theorem pairwise_insertDesc {α β : Type} [LinearOrder β] (key : α → β) (x : α) :
    ∀ l : List α, l.Pairwise (fun a b => key b ≤ key a) →
      (insertDesc key x l).Pairwise (fun a b => key b ≤ key a)
  | [], _ => by simp [insertDesc]
  | y :: l, h => by
      rw [List.pairwise_cons] at h
      rw [insertDesc]
      by_cases hxy : key y ≤ key x
      · rw [if_pos hxy]
        refine List.Pairwise.cons ?_ (List.Pairwise.cons h.1 h.2)
        intro b hb
        rcases List.mem_cons.mp hb with rfl | hb
        · exact hxy
        · exact le_trans (h.1 b hb) hxy
      · rw [if_neg hxy]
        refine List.Pairwise.cons ?_ (pairwise_insertDesc key x l h.2)
        intro b hb
        rcases (mem_insertDesc key x b l).mp hb with rfl | hb
        · exact le_of_lt (not_le.mp hxy)
        · exact h.1 b hb

/-- The output of the stable sort is ordered by non-increasing key. -/
theorem pairwise_sortDesc {α β : Type} [LinearOrder β] (key : α → β) :
    ∀ l : List α, (sortDesc key l).Pairwise (fun a b => key b ≤ key a)
  | [] => by simp [sortDesc]
  | x :: l => pairwise_insertDesc key x _ (pairwise_sortDesc key l)

theorem perm_insertDesc {α β : Type} [LinearOrder β] (key : α → β) (x : α) :
    ∀ l : List α, (insertDesc key x l).Perm (x :: l)
  | [] => List.Perm.refl _
  | y :: l => by
      rw [insertDesc]
      by_cases h : key y ≤ key x
      · rw [if_pos h]
      · rw [if_neg h]
        exact ((perm_insertDesc key x l).cons y).trans (List.Perm.swap x y l)

/-- The stable sort permutes its input. -/
theorem perm_sortDesc {α β : Type} [LinearOrder β] (key : α → β) :
    ∀ l : List α, (sortDesc key l).Perm l
  | [] => List.Perm.refl _
  | x :: l => (perm_insertDesc key x _).trans ((perm_sortDesc key l).cons x)

theorem filter_insertDesc {α β : Type} [LinearOrder β] (key : α → β) (x : α) (k : β) :
    ∀ l : List α,
      (insertDesc key x l).filter (fun a => decide (key a = k))
        = if key x = k then x :: l.filter (fun a => decide (key a = k))
          else l.filter (fun a => decide (key a = k))
  | [] => by
      by_cases h : key x = k <;> simp [insertDesc, h]
  | y :: l => by
      rw [insertDesc]
      by_cases hxy : key y ≤ key x
      · rw [if_pos hxy]
        by_cases hx : key x = k <;> simp [List.filter_cons, hx]
      · rw [if_neg hxy, List.filter_cons, List.filter_cons, filter_insertDesc key x k l]
        by_cases hx : key x = k
        · have hy : ¬ key y = k := fun hyk => hxy (le_of_eq (hyk.trans hx.symm))
          simp [hx, hy]
        · by_cases hy : key y = k <;> simp [hx, hy]

/-- Stability of the sort: the elements carrying any fixed key value `k`
appear in the output in exactly their input order. -/
theorem filter_sortDesc {α β : Type} [LinearOrder β] (key : α → β) (k : β) :
    ∀ l : List α,
      (sortDesc key l).filter (fun a => decide (key a = k))
        = l.filter (fun a => decide (key a = k))
  | [] => rfl
  | x :: l => by
      rw [sortDesc, filter_insertDesc, List.filter_cons, filter_sortDesc key k l]
      by_cases hx : key x = k <;> simp [hx]

end Agg

namespace Gen

/-- The commit increment one weighted-loop iteration gives the language it
names. -/
theorem edgeStep_stats_commits (c T : Nat) (t : Acc) (e : Edge) (L : String) :
    ((edgeStep c T t e).stats L).commits
      = (t.stats L).commits
        + (if e.name = L then
            (if e.name = "" then 0
             else if 0 < edgeWeighted c T e then edgeWeighted c T e else 0)
           else 0) := by
  unfold edgeStep
  by_cases h1 : e.name = ""
  · by_cases h2 : e.name = L <;> simp [h1, h2]
  · by_cases h3 : 0 < edgeWeighted c T e
    · by_cases h2 : e.name = L
      · subst h2
        simp [h1, h3, Agg.Table.update]
      · simp [h1, h3, h2, Agg.Table.update, Ne.symm h2]
    · by_cases h2 : e.name = L <;> simp [h1, h3, h2]

/-- The additions increment one weighted-loop iteration gives the
language it names. -/
theorem edgeStep_stats_additions (c T : Nat) (t : Acc) (e : Edge) (L : String) :
    ((edgeStep c T t e).stats L).additions
      = (t.stats L).additions
        + (if e.name = L then
            (if e.name = "" then 0
             else if 0 < edgeWeighted c T e then e.size * 3 / 10 else 0)
           else 0) := by
  unfold edgeStep
  by_cases h1 : e.name = ""
  · by_cases h2 : e.name = L <;> simp [h1, h2]
  · by_cases h3 : 0 < edgeWeighted c T e
    · by_cases h2 : e.name = L
      · subst h2
        simp [h1, h3, Agg.Table.update]
      · simp [h1, h3, h2, Agg.Table.update, Ne.symm h2]
    · by_cases h2 : e.name = L <;> simp [h1, h3, h2]

/-- The deletions increment one weighted-loop iteration gives the
language it names. -/
theorem edgeStep_stats_deletions (c T : Nat) (t : Acc) (e : Edge) (L : String) :
    ((edgeStep c T t e).stats L).deletions
      = (t.stats L).deletions
        + (if e.name = L then
            (if e.name = "" then 0
             else if 0 < edgeWeighted c T e then e.size / 10 else 0)
           else 0) := by
  unfold edgeStep
  by_cases h1 : e.name = ""
  · by_cases h2 : e.name = L <;> simp [h1, h2]
  · by_cases h3 : 0 < edgeWeighted c T e
    · by_cases h2 : e.name = L
      · subst h2
        simp [h1, h3, Agg.Table.update]
      · simp [h1, h3, h2, Agg.Table.update, Ne.symm h2]
    · by_cases h2 : e.name = L <;> simp [h1, h3, h2]

/-- Primary attribution touches only the `commits` field: `additions`. -/
theorem primaryStep_stats_additions (r : Record) (acc : Acc) (L : String) :
    ((primaryStep r acc).stats L).additions = (acc.stats L).additions := by
  unfold primaryStep
  cases hp : r.primaryLanguage with
  | none => rfl
  | some n =>
      by_cases h1 : n = ""
      · simp [h1]
      · by_cases h2 : L = n <;> simp [h1, h2, Agg.Table.update]

/-- Primary attribution touches only the `commits` field: `deletions`. -/
theorem primaryStep_stats_deletions (r : Record) (acc : Acc) (L : String) :
    ((primaryStep r acc).stats L).deletions = (acc.stats L).deletions := by
  unfold primaryStep
  cases hp : r.primaryLanguage with
  | none => rfl
  | some n =>
      by_cases h1 : n = ""
      · simp [h1]
      · by_cases h2 : L = n <;> simp [h1, h2, Agg.Table.update]

/-- Primary attribution adds the raw commit count to the named language's
`commits` bucket and nothing to any other. -/
theorem primaryStep_stats_commits (r : Record) (acc : Acc) (L : String) :
    ((primaryStep r acc).stats L).commits
      = (acc.stats L).commits
        + (if r.primaryLanguage = some L ∧ L ≠ "" then r.commitCount else 0) := by
  unfold primaryStep
  cases hp : r.primaryLanguage with
  | none => simp
  | some n =>
      by_cases h1 : n = ""
      · subst h1
        have hno : ¬ (some "" = some L ∧ L ≠ "") := by
          rintro ⟨hc, hL⟩
          exact hL (Option.some_injective _ hc).symm
        simp [hno]
        intro h hL
        exact absurd h.symm hL
      · by_cases h2 : L = n
        · subst h2
          simp [h1, Agg.Table.update]
        · have hno : ¬ (some n = some L ∧ L ≠ "") := by
            rintro ⟨hc, -⟩
            exact h2 (Option.some_injective _ hc).symm
          simp [h1, h2, Agg.Table.update, hno]
          intro h hL
          exact absurd h.symm h2

end Gen

namespace Prev

/-- Pointwise effect of one weighted-loop iteration on the language
table. -/
theorem edgeStepT_stats (r : Record) (t : Agg.Table Stats) (e : Edge) (L : String) :
    (edgeStepT r t e).stats L
      = if e.name = L then
          { (t.stats L) with
            weighted_commits := (t.stats L).weighted_commits + (repoCommits r : ℚ) * langShare r e
            repositories := addRepo (t.stats L).repositories r.nameWithOwner
            total_bytes := (t.stats L).total_bytes + e.size
            total_additions := (t.stats L).total_additions + (r.lineAdd : ℚ) * langShare r e
            total_deletions := (t.stats L).total_deletions + (r.lineDel : ℚ) * langShare r e
            net_lines := (t.stats L).net_lines + (r.lineNet : ℚ) * langShare r e }
        else t.stats L := by
  unfold edgeStepT
  by_cases h : L = e.name
  · subst h
    simp [Agg.Table.update]
  · have h2 : ¬ e.name = L := fun hh => h hh.symm
    simp [Agg.Table.update, h, h2]

/-- Pointwise effect of primary-language attribution on the language
table. -/
theorem primaryStep_stats (r : Record) (acc : Acc) (L : String) :
    (primaryStep r acc).langs.stats L
      = if r.primaryLanguage = some L then
          { (acc.langs.stats L) with
            total_commits := (acc.langs.stats L).total_commits + repoCommits r
            repositories := addRepo (acc.langs.stats L).repositories r.nameWithOwner
            total_additions := (acc.langs.stats L).total_additions + (r.lineAdd : ℚ)
            total_deletions := (acc.langs.stats L).total_deletions + (r.lineDel : ℚ)
            net_lines := (acc.langs.stats L).net_lines + (r.lineNet : ℚ) }
        else acc.langs.stats L := by
  unfold primaryStep
  cases hp : r.primaryLanguage with
  | none => simp
  | some n =>
      by_cases h : L = n
      · subst h
        simp [Agg.Table.update]
      · have h2 : ¬ (some n = some L) := by
          intro hc
          exact h (Option.some_injective _ hc).symm
        simp [Agg.Table.update, h, h2]

/-- Primary attribution leaves the run-level totals unchanged. -/
theorem primaryStep_total_commits (r : Record) (acc : Acc) :
    (primaryStep r acc).total_commits = acc.total_commits := by
  unfold primaryStep
  cases r.primaryLanguage <;> rfl

/-- The weighted loop rewrites only the language table. -/
theorem foldl_edgeStep_langs (r : Record) :
    ∀ (l : List Edge) (acc : Acc),
      l.foldl (edgeStep r) acc = { acc with langs := l.foldl (edgeStepT r) acc.langs }
  | [], acc => rfl
  | e :: l, acc => by
      rw [List.foldl_cons, List.foldl_cons, foldl_edgeStep_langs r l]
      rfl

theorem weightedStep_langs (r : Record) (acc : Acc) :
    (weightedStep r acc).langs = r.edges.foldl (edgeStepT r) acc.langs := by
  rw [weightedStep, foldl_edgeStep_langs]

theorem weightedStep_total_commits (r : Record) (acc : Acc) :
    (weightedStep r acc).total_commits = acc.total_commits := by
  rw [weightedStep, foldl_edgeStep_langs]

/-- The weighted loop leaves every unweighted commit bucket unchanged. -/
theorem foldl_edgeStepT_total_commits (r : Record) :
    ∀ (l : List Edge) (t : Agg.Table Stats) (L : String),
      ((l.foldl (edgeStepT r) t).stats L).total_commits = (t.stats L).total_commits
  | [], _, _ => rfl
  | e :: l, t, L => by
      rw [List.foldl_cons, foldl_edgeStepT_total_commits r l, edgeStepT_stats]
      by_cases h : e.name = L <;> simp [h]

theorem foldl_edgeStepT_weighted (r : Record) (l : List Edge) (t : Agg.Table Stats)
    (L : String) :
    ((l.foldl (edgeStepT r) t).stats L).weighted_commits
      = (t.stats L).weighted_commits
        + ((l.filter (fun e => decide (e.name = L))).map
            (fun e => (repoCommits r : ℚ) * langShare r e)).sum :=
  Agg.foldl_stats_delta (edgeStepT r) Edge.name _ Stats.weighted_commits
    (by
      intro t e L
      rw [edgeStepT_stats]
      by_cases h : e.name = L <;> simp [h]) l t L

theorem foldl_edgeStepT_bytes (r : Record) (l : List Edge) (t : Agg.Table Stats)
    (L : String) :
    ((l.foldl (edgeStepT r) t).stats L).total_bytes
      = (t.stats L).total_bytes
        + ((l.filter (fun e => decide (e.name = L))).map Edge.size).sum :=
  Agg.foldl_stats_delta (edgeStepT r) Edge.name _ Stats.total_bytes
    (by
      intro t e L
      rw [edgeStepT_stats]
      by_cases h : e.name = L <;> simp [h]) l t L

theorem foldl_edgeStepT_additions (r : Record) (l : List Edge) (t : Agg.Table Stats)
    (L : String) :
    ((l.foldl (edgeStepT r) t).stats L).total_additions
      = (t.stats L).total_additions
        + ((l.filter (fun e => decide (e.name = L))).map
            (fun e => (r.lineAdd : ℚ) * langShare r e)).sum :=
  Agg.foldl_stats_delta (edgeStepT r) Edge.name _ Stats.total_additions
    (by
      intro t e L
      rw [edgeStepT_stats]
      by_cases h : e.name = L <;> simp [h]) l t L

theorem foldl_edgeStepT_deletions (r : Record) (l : List Edge) (t : Agg.Table Stats)
    (L : String) :
    ((l.foldl (edgeStepT r) t).stats L).total_deletions
      = (t.stats L).total_deletions
        + ((l.filter (fun e => decide (e.name = L))).map
            (fun e => (r.lineDel : ℚ) * langShare r e)).sum :=
  Agg.foldl_stats_delta (edgeStepT r) Edge.name _ Stats.total_deletions
    (by
      intro t e L
      rw [edgeStepT_stats]
      by_cases h : e.name = L <;> simp [h]) l t L

theorem foldl_edgeStepT_net (r : Record) (l : List Edge) (t : Agg.Table Stats)
    (L : String) :
    ((l.foldl (edgeStepT r) t).stats L).net_lines
      = (t.stats L).net_lines
        + ((l.filter (fun e => decide (e.name = L))).map
            (fun e => (r.lineNet : ℚ) * langShare r e)).sum :=
  Agg.foldl_stats_delta (edgeStepT r) Edge.name _ Stats.net_lines
    (by
      intro t e L
      rw [edgeStepT_stats]
      by_cases h : e.name = L <;> simp [h]) l t L

/-- The byte share of an edge is never negative. -/
theorem langShare_nonneg (r : Record) (e : Edge) : 0 ≤ langShare r e := by
  unfold langShare
  split
  · positivity
  · exact le_refl 0

theorem primaryStep_weighted_eq (r : Record) (acc : Acc) (L : String) :
    ((primaryStep r acc).langs.stats L).weighted_commits
      = (acc.langs.stats L).weighted_commits := by
  rw [primaryStep_stats]
  split <;> rfl

theorem primaryStep_bytes_eq (r : Record) (acc : Acc) (L : String) :
    ((primaryStep r acc).langs.stats L).total_bytes
      = (acc.langs.stats L).total_bytes := by
  rw [primaryStep_stats]
  split <;> rfl

theorem primaryStep_total_commits_le (r : Record) (acc : Acc) (L : String) :
    (acc.langs.stats L).total_commits ≤ ((primaryStep r acc).langs.stats L).total_commits := by
  rw [primaryStep_stats]
  split
  · exact Nat.le_add_right _ _
  · exact le_refl _

theorem primaryStep_additions_le (r : Record) (acc : Acc) (L : String) :
    (acc.langs.stats L).total_additions
      ≤ ((primaryStep r acc).langs.stats L).total_additions := by
  rw [primaryStep_stats]
  split
  · exact le_add_of_nonneg_right (by positivity)
  · exact le_refl _

theorem primaryStep_deletions_le (r : Record) (acc : Acc) (L : String) :
    (acc.langs.stats L).total_deletions
      ≤ ((primaryStep r acc).langs.stats L).total_deletions := by
  rw [primaryStep_stats]
  split
  · exact le_add_of_nonneg_right (by positivity)
  · exact le_refl _

theorem primaryStep_net_le (r : Record) (acc : Acc) (L : String) (h : 0 ≤ r.lineNet) :
    (acc.langs.stats L).net_lines ≤ ((primaryStep r acc).langs.stats L).net_lines := by
  rw [primaryStep_stats]
  split
  · exact le_add_of_nonneg_right (by exact_mod_cast h)
  · exact le_refl _

theorem weightedStep_stats_total_commits (r : Record) (acc : Acc) (L : String) :
    ((weightedStep r acc).langs.stats L).total_commits
      = (acc.langs.stats L).total_commits := by
  rw [weightedStep_langs, foldl_edgeStepT_total_commits]

theorem weightedStep_weighted_le (r : Record) (acc : Acc) (L : String) :
    (acc.langs.stats L).weighted_commits
      ≤ ((weightedStep r acc).langs.stats L).weighted_commits := by
  rw [weightedStep_langs, foldl_edgeStepT_weighted]
  refine le_add_of_nonneg_right (List.sum_nonneg ?_)
  intro x hx
  rcases List.mem_map.mp hx with ⟨e, -, rfl⟩
  exact mul_nonneg (by positivity) (langShare_nonneg r e)

theorem weightedStep_bytes_le (r : Record) (acc : Acc) (L : String) :
    (acc.langs.stats L).total_bytes ≤ ((weightedStep r acc).langs.stats L).total_bytes := by
  rw [weightedStep_langs, foldl_edgeStepT_bytes]
  exact Nat.le_add_right _ _

theorem weightedStep_additions_le (r : Record) (acc : Acc) (L : String) :
    (acc.langs.stats L).total_additions
      ≤ ((weightedStep r acc).langs.stats L).total_additions := by
  rw [weightedStep_langs, foldl_edgeStepT_additions]
  refine le_add_of_nonneg_right (List.sum_nonneg ?_)
  intro x hx
  rcases List.mem_map.mp hx with ⟨e, -, rfl⟩
  exact mul_nonneg (by positivity) (langShare_nonneg r e)

theorem weightedStep_deletions_le (r : Record) (acc : Acc) (L : String) :
    (acc.langs.stats L).total_deletions
      ≤ ((weightedStep r acc).langs.stats L).total_deletions := by
  rw [weightedStep_langs, foldl_edgeStepT_deletions]
  refine le_add_of_nonneg_right (List.sum_nonneg ?_)
  intro x hx
  rcases List.mem_map.mp hx with ⟨e, -, rfl⟩
  exact mul_nonneg (by positivity) (langShare_nonneg r e)

theorem weightedStep_net_le (r : Record) (acc : Acc) (L : String) (h : 0 ≤ r.lineNet) :
    (acc.langs.stats L).net_lines ≤ ((weightedStep r acc).langs.stats L).net_lines := by
  rw [weightedStep_langs, foldl_edgeStepT_net]
  refine le_add_of_nonneg_right (List.sum_nonneg ?_)
  intro x hx
  rcases List.mem_map.mp hx with ⟨e, -, rfl⟩
  exact mul_nonneg (by exact_mod_cast h) (langShare_nonneg r e)

theorem runTotalsStep_langs (r : Record) (acc : Acc) :
    (runTotalsStep r acc).langs = acc.langs := rfl

/-- The run-level `total_commits` accumulates exactly the raw commit
counts of the records that survive filtering. -/
theorem foldl_process_total_commits (cfg : Config) :
    ∀ (l : List Record) (acc : Acc),
      (l.foldl (processRecord cfg) acc).total_commits
        = acc.total_commits + ((l.filter (fun r => passes cfg r)).map repoCommits).sum
  | [], acc => by simp
  | r :: l, acc => by
      rw [List.foldl_cons, foldl_process_total_commits cfg l, List.filter_cons]
      by_cases h : passes cfg r
      · simp only [h, if_true, List.map_cons, List.sum_cons, processRecord,
          weightedStep_total_commits, primaryStep_total_commits, runTotalsStep]
        omega
      · simp [processRecord, h]

end Prev

namespace Agg

/-- Summing truncated divisions termwise never exceeds dividing the sum. -/
theorem nat_sum_div_le (T : Nat) : ∀ l : List Nat, (l.map (fun a => a / T)).sum ≤ l.sum / T
  | [] => by simp
  | a :: l => by
      rw [List.map_cons, List.sum_cons, List.sum_cons]
      exact le_trans (Nat.add_le_add_left (nat_sum_div_le T l) _)
        (Nat.add_div_le_add_div a l.sum T)

end Agg

namespace Gen

theorem foldl_edgeStep_commits (c T : Nat) (l : List Edge) (t : Acc) (L : String) :
    ((l.foldl (edgeStep c T) t).stats L).commits
      = (t.stats L).commits
        + ((l.filter (fun e => decide (e.name = L))).map
            (fun e => if e.name = "" then 0
              else if 0 < edgeWeighted c T e then edgeWeighted c T e else 0)).sum :=
  Agg.foldl_stats_delta (edgeStep c T) Edge.name _ Stats.commits
    (fun t e L => edgeStep_stats_commits c T t e L) l t L

theorem foldl_edgeStep_additions (c T : Nat) (l : List Edge) (t : Acc) (L : String) :
    ((l.foldl (edgeStep c T) t).stats L).additions
      = (t.stats L).additions
        + ((l.filter (fun e => decide (e.name = L))).map
            (fun e => if e.name = "" then 0
              else if 0 < edgeWeighted c T e then e.size * 3 / 10 else 0)).sum :=
  Agg.foldl_stats_delta (edgeStep c T) Edge.name _ Stats.additions
    (fun t e L => edgeStep_stats_additions c T t e L) l t L

theorem foldl_edgeStep_deletions (c T : Nat) (l : List Edge) (t : Acc) (L : String) :
    ((l.foldl (edgeStep c T) t).stats L).deletions
      = (t.stats L).deletions
        + ((l.filter (fun e => decide (e.name = L))).map
            (fun e => if e.name = "" then 0
              else if 0 < edgeWeighted c T e then e.size / 10 else 0)).sum :=
  Agg.foldl_stats_delta (edgeStep c T) Edge.name _ Stats.deletions
    (fun t e L => edgeStep_stats_deletions c T t e L) l t L

/-- The truncated weighted commits of one record sum to at most its raw
commit count. -/
theorem sum_edgeWeighted_le (c : Nat) (r : Record) :
    (r.edges.map (fun e => edgeWeighted c (totalSize r) e)).sum ≤ c := by
  have h0 : r.edges.map (fun e => edgeWeighted c (totalSize r) e)
      = (r.edges.map (fun e => c * e.size)).map (fun a => a / totalSize r) := by
    rw [List.map_map]
    rfl
  have h2 : (r.edges.map fun e => c * e.size).sum = c * totalSize r := by
    have h3 : (r.edges.map fun e => c * e.size)
        = (r.edges.map Edge.size).map (fun s => c * s) := by
      rw [List.map_map]
      rfl
    rw [h3, List.sum_map_mul_left, List.map_id', totalSize]
  rw [h0]
  refine le_trans (Agg.nat_sum_div_le _ _) ?_
  rw [h2]
  rcases Nat.eq_zero_or_pos (totalSize r) with h | h
  · simp [h]
  · rw [Nat.mul_div_cancel c h]

end Gen

/-!
## The claims
-/

/-- C1, counterexample.  The claim asserts that the weighted attribution
step adds exactly `share × commit_count` to each declared language and
that the added amounts sum to the record's raw commit count (within
floating-point tolerance).  In `generator.py` the weighted amounts are
truncated (`int(commit_count * lang_proportion)`), so for a record with
declared bytes `{A: 1, B: 1, C: 1}` and commit count `10` each language
gains `⌊10/3⌋ = 3` and the record contributes `9 ≠ 10` weighted commits
in total — an integer shortfall no floating-point tolerance covers. -/
theorem C1_counterexample :
    Gen.bucketTotal
        (Gen.weightedStep ⟨some "A", [⟨"A", 1⟩, ⟨"B", 1⟩, ⟨"C", 1⟩], 10⟩ Gen.emptyAcc) = 9
      ∧ Gen.Record.commitCount ⟨some "A", [⟨"A", 1⟩, ⟨"B", 1⟩, ⟨"C", 1⟩], 10⟩ = 10
      ∧ (9 : Nat) ≠ 10 := by
  decide

/-- C1 (amended): in `generator_prev.py`'s weighted attribution, when the
record's declared language names are distinct and the API `totalSize`
field equals the (positive) sum of the declared byte sizes, each declared
language's weighted bucket grows by exactly
`commit_count × bytes / total_declared_bytes`, and those exact shares sum
to the record's raw commit count; in `generator.py`'s weighted
attribution each declared language instead gains the truncated share
`⌊commit_count × bytes / total⌋`, and the per-record sum of these
truncated amounts is at most (not necessarily equal to) the raw commit
count. -/
theorem C1_weighted_attribution :
    (∀ (r : Prev.Record) (acc : Prev.Acc) (e : Prev.Edge),
        e ∈ r.edges → (r.edges.map Prev.Edge.name).Nodup →
        r.totalSize = (r.edges.map Prev.Edge.size).sum → 0 < r.totalSize →
        ((Prev.weightedStep r acc).langs.stats e.name).weighted_commits
          = (acc.langs.stats e.name).weighted_commits
            + (Prev.repoCommits r : ℚ) * ((e.size : ℚ) / (r.totalSize : ℚ)))
    ∧ (∀ (r : Prev.Record), r.totalSize = (r.edges.map Prev.Edge.size).sum →
        0 < r.totalSize →
        (r.edges.map (fun e => (Prev.repoCommits r : ℚ) * ((e.size : ℚ) / (r.totalSize : ℚ)))).sum
          = (Prev.repoCommits r : ℚ))
    ∧ (∀ (r : Gen.Record),
        (r.edges.map (fun e => Gen.edgeWeighted r.commitCount (Gen.totalSize r) e)).sum
          ≤ r.commitCount) := by
  refine ⟨?_, ?_, ?_⟩
  · intro r acc e he hnd htot hpos
    rw [Prev.weightedStep_langs, Prev.foldl_edgeStepT_weighted,
      Agg.filter_name_eq_of_nodup Prev.Edge.name r.edges e he hnd]
    simp only [List.map_cons, List.map_nil, List.sum_cons, List.sum_nil, add_zero]
    rw [Prev.langShare, if_pos hpos]
  · intro r htot hpos
    have hT : ((r.totalSize : ℚ)) ≠ 0 := by
      exact_mod_cast Nat.pos_iff_ne_zero.mp hpos
    have hfun : (fun e : Prev.Edge => (Prev.repoCommits r : ℚ) * ((e.size : ℚ) / (r.totalSize : ℚ)))
        = fun e : Prev.Edge => ((Prev.repoCommits r : ℚ) / (r.totalSize : ℚ)) * (e.size : ℚ) := by
      funext e
      ring
    rw [hfun, List.sum_map_mul_left]
    have hcast : (r.edges.map fun e : Prev.Edge => ((e.size : Nat) : ℚ)).sum
        = (((r.edges.map Prev.Edge.size).sum : Nat) : ℚ) := by
      rw [Nat.cast_list_sum, List.map_map]
      rfl
    rw [hcast, ← htot, div_mul_cancel₀ _ hT]
  · intro r
    exact Gen.sum_edgeWeighted_le r.commitCount r

/-- C1 witness: the amended claim evaluated on the record with bytes
`{A: 60, B: 40}` and commit count `10`. -/
theorem C1_witness :
    ((⟨"o/r", false, false, some "A", [⟨"A", 60⟩, ⟨"B", 40⟩], 100, [10], 0, 0, 0⟩ : Prev.Record).edges.map
        Prev.Edge.name).Nodup
      ∧ (⟨"o/r", false, false, some "A", [⟨"A", 60⟩, ⟨"B", 40⟩], 100, [10], 0, 0, 0⟩ : Prev.Record).totalSize
          = ((⟨"o/r", false, false, some "A", [⟨"A", 60⟩, ⟨"B", 40⟩], 100, [10], 0, 0, 0⟩ : Prev.Record).edges.map
              Prev.Edge.size).sum
      ∧ ((⟨"o/r", false, false, some "A", [⟨"A", 60⟩, ⟨"B", 40⟩], 100, [10], 0, 0, 0⟩ : Prev.Record).edges.map
            (fun e => (Prev.repoCommits ⟨"o/r", false, false, some "A", [⟨"A", 60⟩, ⟨"B", 40⟩], 100, [10], 0, 0, 0⟩ : ℚ)
              * ((e.size : ℚ) / ((⟨"o/r", false, false, some "A", [⟨"A", 60⟩, ⟨"B", 40⟩], 100, [10], 0, 0, 0⟩ : Prev.Record).totalSize : ℚ)))).sum
          = (Prev.repoCommits ⟨"o/r", false, false, some "A", [⟨"A", 60⟩, ⟨"B", 40⟩], 100, [10], 0, 0, 0⟩ : ℚ) :=
  ⟨by decide, by decide,
    C1_weighted_attribution.2.1 _ (by decide) (by decide)⟩

/-- C2: the run-level total commit count of `analyze_languages` equals
the sum of the raw (unweighted) per-repository commit counts over exactly
the records that survive the fork/private/minimum-commit filters;
filtered records contribute nothing. -/
theorem C2_run_total_commits (cfg : Prev.Config) (records : List Prev.Record) :
    (Prev.analyze cfg records).total_commits
      = ((records.filter (fun r => Prev.passes cfg r)).map Prev.repoCommits).sum := by
  rw [Prev.analyze, Prev.foldl_process_total_commits]
  simp [Prev.emptyAcc]

/-- C3, counterexample.  The claim asserts that every reported percentage
equals the language's weighted-commit bucket divided by the *run-level
total commit count*, times 100.  In `generator.py` the denominator is
instead the sum of the per-language (merged) buckets: for one year with
`totalCommitContributions = 10` and a single record (primary `A`, bytes
`{A: 100}`, 10 commits), the bucket holds `20` (primary + weighted), the
run-level total is `10`, and the reported percentage is `100`, while the
claim's formula yields `20 / 10 × 100 = 200`. -/
theorem C3_counterexample :
    (Gen.foldYears [Except.ok ⟨10, [⟨some "A", [⟨"A", 100⟩], 10⟩]⟩] (0, Gen.emptyAcc)).1 = 10
      ∧ ((Gen.foldYears [Except.ok ⟨10, [⟨some "A", [⟨"A", 100⟩], 10⟩]⟩]
            (0, Gen.emptyAcc)).2.stats "A").commits = 20
      ∧ (Gen.calculateLanguagePercentages
            (Gen.foldYears [Except.ok ⟨10, [⟨some "A", [⟨"A", 100⟩], 10⟩]⟩]
              (0, Gen.emptyAcc)).2).map Gen.PercEntry.percentage = [100]
      ∧ (20 : ℚ) / (10 : ℚ) * 100 = 200
      ∧ (100 : ℚ) ≠ 200 := by
  refine ⟨by decide, by decide, ?_, by norm_num, by norm_num⟩
  have hb : Gen.bucketTotal
      (Gen.foldYears [Except.ok ⟨10, [⟨some "A", [⟨"A", 100⟩], 10⟩]⟩] (0, Gen.emptyAcc)).2
        = 20 := by decide
  rw [Gen.calculateLanguagePercentages, if_neg (by rw [hb]; norm_num)]
  have hkeys : (Gen.foldYears [Except.ok ⟨10, [⟨some "A", [⟨"A", 100⟩], 10⟩]⟩]
      (0, Gen.emptyAcc)).2.keys = ["A"] := by decide
  have hstats : ((Gen.foldYears [Except.ok ⟨10, [⟨some "A", [⟨"A", 100⟩], 10⟩]⟩]
      (0, Gen.emptyAcc)).2.stats "A") = ⟨20, 30, 10⟩ := by decide
  rw [Gen.percEntries, hkeys]
  simp only [List.filterMap, hstats, hb]
  norm_num [Agg.sortDesc, Agg.insertDesc]

/-- C3 (amended): in `generator_prev.py` every reported
`weighted_percentage` equals the language's weighted-commit bucket
divided by the run-level total commit count, times 100 (when that total
is positive), the output is ordered by non-increasing weighted commits,
and entries tied on the sort key keep their accumulation order (Python's
`sorted` is stable).  In `generator.py` the reported percentage instead
equals the language's *merged* commit bucket divided by the *sum of all
merged buckets*, times 100; the output is ordered by non-increasing
percentage with ties likewise kept in accumulation order. -/
theorem C3_percentages :
    (∀ (acc : Prev.Acc), 0 < acc.total_commits →
        ∀ x ∈ Prev.finalLanguages acc,
          x.weighted_percentage = x.weighted_commits / (acc.total_commits : ℚ) * 100
            ∧ x.weighted_commits = (acc.langs.stats x.name).weighted_commits)
    ∧ (∀ acc : Prev.Acc,
        List.Pairwise (fun a b => b.weighted_commits ≤ a.weighted_commits)
          (Prev.finalLanguages acc))
    ∧ (∀ (acc : Prev.Acc) (q : ℚ),
        (Prev.finalLanguages acc).filter (fun x => decide (x.weighted_commits = q))
          = (acc.langs.keys.map (Prev.mkFinalEntry acc)).filter
              (fun x => decide (x.weighted_commits = q)))
    ∧ (∀ acc : Gen.Acc, ∀ x ∈ Gen.calculateLanguagePercentages acc,
        x.percentage = (x.commits : ℚ) / (Gen.bucketTotal acc : ℚ) * 100
          ∧ x.commits = (acc.stats x.name).commits ∧ 0 < x.commits)
    ∧ (∀ acc : Gen.Acc,
        List.Pairwise (fun a b => b.percentage ≤ a.percentage)
          (Gen.calculateLanguagePercentages acc))
    ∧ (∀ (acc : Gen.Acc) (q : ℚ), Gen.bucketTotal acc ≠ 0 →
        (Gen.calculateLanguagePercentages acc).filter (fun x => decide (x.percentage = q))
          = (Gen.percEntries acc).filter (fun x => decide (x.percentage = q))) := by
  refine ⟨?_, ?_, ?_, ?_, ?_, ?_⟩
  · intro acc htot x hx
    rw [Prev.finalLanguages] at hx
    have hx2 : x ∈ acc.langs.keys.map (Prev.mkFinalEntry acc) :=
      ((Agg.perm_sortDesc Prev.FinalEntry.weighted_commits _).mem_iff).mp hx
    rcases List.mem_map.mp hx2 with ⟨k, -, rfl⟩
    constructor
    · simp [Prev.mkFinalEntry, htot]
    · rfl
  · intro acc
    exact Agg.pairwise_sortDesc Prev.FinalEntry.weighted_commits _
  · intro acc q
    exact Agg.filter_sortDesc Prev.FinalEntry.weighted_commits q _
  · intro acc x hx
    rw [Gen.calculateLanguagePercentages] at hx
    by_cases hz : Gen.bucketTotal acc = 0
    · rw [if_pos hz] at hx
      exact absurd hx (List.not_mem_nil x)
    · rw [if_neg hz] at hx
      have hx2 : x ∈ Gen.percEntries acc :=
        ((Agg.perm_sortDesc Gen.PercEntry.percentage _).mem_iff).mp hx
      rcases List.mem_filterMap.mp hx2 with ⟨k, -, hsome⟩
      simp only at hsome
      by_cases hc : 0 < (acc.stats k).commits
      · rw [if_pos hc] at hsome
        cases hsome
        exact ⟨rfl, rfl, hc⟩
      · rw [if_neg hc] at hsome
        exact absurd hsome (Option.noConfusion)
  · intro acc
    rw [Gen.calculateLanguagePercentages]
    by_cases hz : Gen.bucketTotal acc = 0
    · rw [if_pos hz]
      exact List.Pairwise.nil
    · rw [if_neg hz]
      exact Agg.pairwise_sortDesc Gen.PercEntry.percentage _
  · intro acc q hz
    rw [Gen.calculateLanguagePercentages, if_neg hz]
    exact Agg.filter_sortDesc Gen.PercEntry.percentage q _

/-- C3 witness: the amended percentage formula applied to a concrete
accumulated run with a positive run-level total. -/
theorem C3_witness :
    0 < (Prev.analyze ⟨true, true, 1⟩
          [⟨"o/r", false, false, some "A", [⟨"A", 100⟩], 100, [10], 0, 0, 0⟩]).total_commits
      ∧ ∀ x ∈ Prev.finalLanguages (Prev.analyze ⟨true, true, 1⟩
          [⟨"o/r", false, false, some "A", [⟨"A", 100⟩], 100, [10], 0, 0, 0⟩]),
          x.weighted_percentage
              = x.weighted_commits
                / ((Prev.analyze ⟨true, true, 1⟩
                    [⟨"o/r", false, false, some "A", [⟨"A", 100⟩], 100, [10], 0, 0, 0⟩]).total_commits : ℚ)
                * 100
            ∧ x.weighted_commits
              = ((Prev.analyze ⟨true, true, 1⟩
                  [⟨"o/r", false, false, some "A", [⟨"A", 100⟩], 100, [10], 0, 0, 0⟩]).langs.stats x.name).weighted_commits :=
  ⟨by decide, C3_percentages.1 _ (by decide)⟩

/-- C4, counterexample.  The claim asserts that primary-language
attribution and byte-proportional attribution write to two separate
accumulators that are never merged.  In `generator.py` both steps add
into the single `language_stats[lang]['commits']` bucket: for a record
with primary language `A`, bytes `{A: 100}` and commit count `10`, the
primary step leaves `commits = 10` and the weighted step then raises the
same field to `20`. -/
theorem C4_counterexample :
    ((Gen.weightedStep ⟨some "A", [⟨"A", 100⟩], 10⟩
        (Gen.primaryStep ⟨some "A", [⟨"A", 100⟩], 10⟩ Gen.emptyAcc)).stats "A").commits = 20
      ∧ ((Gen.primaryStep ⟨some "A", [⟨"A", 100⟩], 10⟩ Gen.emptyAcc).stats "A").commits = 10
      ∧ (20 : Nat) ≠ 10 := by
  decide

/-- C4 (amended): in `generator_prev.py` the two commit accumulators are
indeed separate — primary attribution never changes any language's
`weighted_commits` bucket and weighted attribution never changes any
language's `total_commits` bucket; in `generator.py` there is only one
commit accumulator and both steps add into it (see the
counterexample). -/
theorem C4_separate_accumulators (r : Prev.Record) (acc : Prev.Acc) (L : String) :
    ((Prev.primaryStep r acc).langs.stats L).weighted_commits
        = (acc.langs.stats L).weighted_commits
      ∧ ((Prev.weightedStep r acc).langs.stats L).total_commits
        = (acc.langs.stats L).total_commits := by
  constructor
  · rw [Prev.primaryStep_stats]
    by_cases h : r.primaryLanguage = some L <;> simp [h]
  · rw [Prev.weightedStep_langs, Prev.foldl_edgeStepT_total_commits]

/-- C5: a record whose declared byte total is zero performs no weighted
attribution in either pipeline (no division-by-zero is possible: the
share is explicitly defined as `0` in `generator_prev.py` and the whole
weighted block is skipped in `generator.py`), while a declared primary
language `X` still receives the record's full raw commit count in its
unweighted bucket; in `generator.py` no other language's commit bucket
and no line counters change at all. -/
theorem C5_zero_total_bytes :
    (∀ (cfg : Prev.Config) (acc : Prev.Acc) (r : Prev.Record) (X : String),
        Prev.passes cfg r = true → r.primaryLanguage = some X → r.totalSize = 0 →
        ((Prev.processRecord cfg acc r).langs.stats X).total_commits
            = (acc.langs.stats X).total_commits + Prev.repoCommits r
          ∧ ∀ L, ((Prev.processRecord cfg acc r).langs.stats L).weighted_commits
            = (acc.langs.stats L).weighted_commits)
    ∧ (∀ (acc : Gen.Acc) (r : Gen.Record) (X : String),
        r.primaryLanguage = some X → X ≠ "" → Gen.totalSize r = 0 →
        ((Gen.processRecord acc r).stats X).commits
            = (acc.stats X).commits + r.commitCount
          ∧ (∀ L, L ≠ X → ((Gen.processRecord acc r).stats L).commits = (acc.stats L).commits)
          ∧ (∀ L, ((Gen.processRecord acc r).stats L).additions = (acc.stats L).additions
              ∧ ((Gen.processRecord acc r).stats L).deletions = (acc.stats L).deletions)) := by
  constructor
  · intro cfg acc r X hpass hprim htot
    have hshare : ∀ e : Prev.Edge, Prev.langShare r e = 0 := by
      intro e
      rw [Prev.langShare, htot]
      simp
    rw [Prev.processRecord, if_pos hpass]
    constructor
    · rw [Prev.weightedStep_langs, Prev.foldl_edgeStepT_total_commits,
        Prev.primaryStep_stats, if_pos hprim]
      rfl
    · intro L
      rw [Prev.weightedStep_langs, Prev.foldl_edgeStepT_weighted]
      have hz : ((r.edges.filter (fun e => decide (e.name = L))).map
          (fun e => (Prev.repoCommits r : ℚ) * Prev.langShare r e)).sum = 0 := by
        apply List.sum_eq_zero
        intro x hx
        rcases List.mem_map.mp hx with ⟨e, -, rfl⟩
        rw [hshare e, mul_zero]
      rw [hz, add_zero, Prev.primaryStep_stats]
      by_cases h : r.primaryLanguage = some L <;> simp [h, Prev.runTotalsStep]
  · intro acc r X hprim hX htot
    by_cases hc : r.commitCount = 0
    · rw [Gen.processRecord, if_pos hc]
      refine ⟨by simp [hc], fun L _ => rfl, fun L => ⟨rfl, rfl⟩⟩
    · have hw : ∀ a, Gen.weightedStep r a = a := by
        intro a
        rw [Gen.weightedStep, htot]
        simp
      rw [Gen.processRecord, if_neg hc, hw]
      refine ⟨?_, ?_, ?_⟩
      · rw [Gen.primaryStep_stats_commits, hprim, if_pos ⟨rfl, hX⟩]
      · intro L hL
        rw [Gen.primaryStep_stats_commits, hprim]
        have : ¬ (some X = some L ∧ L ≠ "") := by
          rintro ⟨hc2, -⟩
          exact hL (Option.some_injective _ hc2).symm
        rw [if_neg this, add_zero]
      · intro L
        exact ⟨Gen.primaryStep_stats_additions r acc L, Gen.primaryStep_stats_deletions r acc L⟩

/-- C5 witness: the amended-free claim evaluated on a record with total
declared bytes `0`, primary language `X`, and commit count `5`. -/
theorem C5_witness :
    Prev.passes ⟨true, true, 1⟩ ⟨"o/r", false, false, some "X", [], 0, [5], 0, 0, 0⟩ = true
      ∧ ((Prev.processRecord ⟨true, true, 1⟩ Prev.emptyAcc
            ⟨"o/r", false, false, some "X", [], 0, [5], 0, 0, 0⟩).langs.stats "X").total_commits
          = ((Prev.emptyAcc).langs.stats "X").total_commits
            + Prev.repoCommits ⟨"o/r", false, false, some "X", [], 0, [5], 0, 0, 0⟩
      ∧ ∀ L, ((Prev.processRecord ⟨true, true, 1⟩ Prev.emptyAcc
            ⟨"o/r", false, false, some "X", [], 0, [5], 0, 0, 0⟩).langs.stats L).weighted_commits
          = ((Prev.emptyAcc).langs.stats L).weighted_commits :=
  ⟨by decide,
    (C5_zero_total_bytes.1 ⟨true, true, 1⟩ Prev.emptyAcc _ "X" (by decide) rfl rfl).1,
    (C5_zero_total_bytes.1 ⟨true, true, 1⟩ Prev.emptyAcc _ "X" (by decide) rfl rfl).2⟩

/-- C10: in the `generator.py` pipeline, for a record with positive total
declared bytes and duplicate-free declared language names, processing the
record adds `⌊0.3 × bytes⌋` to a declared language's additions and
`⌊0.1 × bytes⌋` to its deletions exactly when that language's truncated
weighted commit count is positive — the line counts are byte-size
estimates, independent of any per-commit addition/deletion data (the
record carries none). -/
theorem C10_line_estimates (acc : Gen.Acc) (r : Gen.Record) (e : Gen.Edge)
    (he : e ∈ r.edges) (hnd : (r.edges.map Gen.Edge.name).Nodup) (hne : e.name ≠ "")
    (hpos : 0 < Gen.totalSize r) :
    ((Gen.processRecord acc r).stats e.name).additions
        = (acc.stats e.name).additions
          + (if 0 < Gen.edgeWeighted r.commitCount (Gen.totalSize r) e
             then e.size * 3 / 10 else 0)
      ∧ ((Gen.processRecord acc r).stats e.name).deletions
        = (acc.stats e.name).deletions
          + (if 0 < Gen.edgeWeighted r.commitCount (Gen.totalSize r) e
             then e.size / 10 else 0) := by
  by_cases hc : r.commitCount = 0
  · have hw : Gen.edgeWeighted r.commitCount (Gen.totalSize r) e = 0 := by
      rw [Gen.edgeWeighted, hc, zero_mul, Nat.zero_div]
    rw [Gen.processRecord, if_pos hc, hw]
    simp
  · rw [Gen.processRecord, if_neg hc, Gen.weightedStep, if_pos hpos,
      Gen.foldl_edgeStep_additions, Gen.foldl_edgeStep_deletions,
      Agg.filter_name_eq_of_nodup Gen.Edge.name r.edges e he hnd,
      Gen.primaryStep_stats_additions, Gen.primaryStep_stats_deletions]
    simp [hne]

/-- C6, counterexample.  The claim asserts that a transport failure or
error response for a single year slice is warned about and skipped, the
other years' results are preserved, and the run exits 0.  In
`generator_prev.py` the per-year loop installs no handler around
`_make_graphql_request` (which raises on non-200 and on GraphQL errors),
so with three year slices whose middle fetch fails the whole run aborts
with exit code 1 and the two successful slices are discarded. -/
theorem C6_counterexample :
    Prev.fetchYears
        [Except.ok ⟨3, true, []⟩, Except.error "transport failure", Except.ok ⟨4, true, []⟩]
      = Except.error "transport failure"
    ∧ Prev.runExit
        [Except.ok ⟨3, true, []⟩, Except.error "transport failure", Except.ok ⟨4, true, []⟩] = 1
    ∧ (1 : Nat) ≠ 0 := by
  refine ⟨rfl, rfl, by decide⟩

/-- C6 (amended): in `generator.py` a failed or malformed year response
is skipped with a warning — the fold ignores failed slices, the run-level
total is the sum over exactly the successful slices, a resolved user
yields exit code 0 and a failed user resolution yields exit code 1.  In
`generator_prev.py`, however, the first failing year slice aborts the
entire fetch (and hence the run, with exit code 1), discarding all
slices. -/
theorem C6_year_failure_handling :
    (∀ (years : List (Except String Gen.YearSlice)) (st : Nat × Gen.Acc),
        Gen.foldYears years st = (Agg.successes years).foldl Gen.processYear st)
    ∧ (∀ years : List (Except String Gen.YearSlice),
        (Gen.foldYears years (0, Gen.emptyAcc)).1
          = ((Agg.successes years).map Gen.YearSlice.totalCommitContributions).sum)
    ∧ (∀ (u : Gen.UserInfo) (years : List (Except String Gen.YearSlice)),
        Gen.mainExit (Except.ok u) years = 0)
    ∧ (∀ (e : String) (years : List (Except String Gen.YearSlice)),
        Gen.mainExit (Except.error e) years = 1)
    ∧ (∀ (pre post : List (Except String Prev.YearData)) (m : String),
        (∀ x ∈ pre, ∃ y, x = Except.ok y) →
        Prev.fetchYears (pre ++ Except.error m :: post) = Except.error m
          ∧ Prev.runExit (pre ++ Except.error m :: post) = 1) := by
  have hskip : ∀ (years : List (Except String Gen.YearSlice)) (st : Nat × Gen.Acc),
      Gen.foldYears years st = (Agg.successes years).foldl Gen.processYear st := by
    intro years
    induction years with
    | nil => intro st; rfl
    | cons y ys ih =>
        intro st
        cases y with
        | error e => rw [Gen.foldYears, Agg.successes, ih]
        | ok v => rw [Gen.foldYears, Agg.successes, List.foldl_cons, ih]
  have htot : ∀ (l : List Gen.YearSlice) (st : Nat × Gen.Acc),
      (l.foldl Gen.processYear st).1
        = st.1 + (l.map Gen.YearSlice.totalCommitContributions).sum := by
    intro l
    induction l with
    | nil => intro st; simp
    | cons y l ih =>
        intro st
        rw [List.foldl_cons, ih, List.map_cons, List.sum_cons]
        show st.1 + y.totalCommitContributions + _ = _
        omega
  have habort : ∀ (pre : List (Except String Prev.YearData)) (post : List (Except String Prev.YearData)) (m : String),
      (∀ x ∈ pre, ∃ y, x = Except.ok y) →
      Prev.fetchYears (pre ++ Except.error m :: post) = Except.error m := by
    intro pre
    induction pre with
    | nil => intro post m _; rfl
    | cons x pre ih =>
        intro post m hok
        rcases hok x (List.mem_cons_self x pre) with ⟨y, rfl⟩
        rw [List.cons_append, Prev.fetchYears,
          ih post m (fun z hz => hok z (List.mem_cons_of_mem _ hz))]
        rfl
  refine ⟨hskip, ?_, ?_, ?_, ?_⟩
  · intro years
    rw [hskip years (0, Gen.emptyAcc), htot]
    simp
  · intro u years
    rfl
  · intro e years
    rfl
  · intro pre post m hok
    refine ⟨habort pre post m hok, ?_⟩
    rw [Prev.runExit, habort pre post m hok]

/-- C6 witness: the `generator_prev.py` abort behaviour applied to three
slices with the middle one failing. -/
theorem C6_witness :
    (∀ x ∈ ([Except.ok ⟨3, true, []⟩] : List (Except String Prev.YearData)),
        ∃ y, x = Except.ok y)
      ∧ Prev.fetchYears
          (([Except.ok ⟨3, true, []⟩] : List (Except String Prev.YearData))
            ++ Except.error "boom" :: [Except.ok ⟨4, true, []⟩])
        = Except.error "boom"
      ∧ Prev.runExit
          (([Except.ok ⟨3, true, []⟩] : List (Except String Prev.YearData))
            ++ Except.error "boom" :: [Except.ok ⟨4, true, []⟩]) = 1 :=
  have hok : ∀ x ∈ ([Except.ok ⟨3, true, []⟩] : List (Except String Prev.YearData)),
      ∃ y, x = Except.ok y := by
    intro x hx
    rcases List.mem_singleton.mp hx with rfl
    exact ⟨_, rfl⟩
  ⟨hok, (C6_year_failure_handling.2.2.2.2 _ _ "boom" hok).1,
    (C6_year_failure_handling.2.2.2.2 _ _ "boom" hok).2⟩

/-- C9: the claim (matching `format_line`'s own docstring, "Format a line
to be exactly the specified width") demands that a truncated value still
render at exactly 68 columns.  The truncation branch is off by one: it
reserves `total_width - len(key_part) - 1` columns for the value but then
emits one dot *plus* a space, the truncated value and `"..."`, totalling
69 columns.  A fitting value does render at exactly 68 columns.  (In
`format_styled_line` the same branch computes a truncation and then
discards it, interpolating the original value.) -/
theorem C9_truncation_width :
    (Fmt.formatLine ("Commits".toList) (List.replicate 70 'x')).length = 69
      ∧ (Fmt.formatLine ("OS".toList) ("Windows 10".toList)).length = 68
      ∧ (69 : Nat) ≠ 68 := by
  refine ⟨by decide, by decide, by decide⟩

/-- C8, counterexample.  The claim lists net lines among the per-language
totals that never decrease when one more record is folded in.  In
`generator_prev.py` a record whose line statistics show more deletions
than additions carries a negative `net_lines`, which is added to the
language's `net_lines` both by primary attribution and (share-weighted)
by weighted attribution: a record for language `A` with additions `0`,
deletions `5` (net `-5`), bytes `{A: 10}` and commit count `5` drives
`A`'s accumulated net lines from `0` down to `-10`. -/
theorem C8_counterexample :
    ((Prev.processRecord ⟨true, true, 0⟩ Prev.emptyAcc
        ⟨"o/r", false, false, some "A", [⟨"A", 10⟩], 10, [5], 0, 5, -5⟩).langs.stats "A").net_lines
      = -10
    ∧ ¬ ((0 : ℚ) ≤ -10) := by
  constructor
  · rw [Prev.processRecord, if_pos (by decide), Prev.weightedStep_langs,
      Prev.foldl_edgeStepT_net, Prev.primaryStep_stats]
    norm_num [Prev.langShare, Prev.repoCommits, Prev.runTotalsStep, Prev.emptyAcc,
      Agg.emptyTable, Prev.Stats.start, List.filter]
  · norm_num

/-- C8 (amended): every per-language accumulated total among unweighted
commits, weighted commits, byte totals, additions and deletions is
monotonically non-decreasing when a record is folded in, in both
pipelines; the per-language net-lines total is non-decreasing provided
the record's own net line count is non-negative (it can decrease
otherwise — see the counterexample). -/
theorem C8_monotonic_accumulators :
    (∀ (cfg : Prev.Config) (acc : Prev.Acc) (r : Prev.Record) (L : String),
        (acc.langs.stats L).total_commits
            ≤ ((Prev.processRecord cfg acc r).langs.stats L).total_commits
          ∧ (acc.langs.stats L).weighted_commits
            ≤ ((Prev.processRecord cfg acc r).langs.stats L).weighted_commits
          ∧ (acc.langs.stats L).total_bytes
            ≤ ((Prev.processRecord cfg acc r).langs.stats L).total_bytes
          ∧ (acc.langs.stats L).total_additions
            ≤ ((Prev.processRecord cfg acc r).langs.stats L).total_additions
          ∧ (acc.langs.stats L).total_deletions
            ≤ ((Prev.processRecord cfg acc r).langs.stats L).total_deletions
          ∧ (0 ≤ r.lineNet →
              (acc.langs.stats L).net_lines
                ≤ ((Prev.processRecord cfg acc r).langs.stats L).net_lines))
    ∧ (∀ (acc : Gen.Acc) (r : Gen.Record) (L : String),
        (acc.stats L).commits ≤ ((Gen.processRecord acc r).stats L).commits
          ∧ (acc.stats L).additions ≤ ((Gen.processRecord acc r).stats L).additions
          ∧ (acc.stats L).deletions ≤ ((Gen.processRecord acc r).stats L).deletions) := by
  constructor
  · intro cfg acc r L
    rw [Prev.processRecord]
    by_cases hp : Prev.passes cfg r
    · rw [if_pos hp]
      refine ⟨?_, ?_, ?_, ?_, ?_, ?_⟩
      · rw [Prev.weightedStep_stats_total_commits]
        exact Prev.primaryStep_total_commits_le r (Prev.runTotalsStep r acc) L
      · exact le_trans
          (le_of_eq (Prev.primaryStep_weighted_eq r (Prev.runTotalsStep r acc) L).symm)
          (Prev.weightedStep_weighted_le r (Prev.primaryStep r (Prev.runTotalsStep r acc)) L)
      · exact le_trans
          (le_of_eq (Prev.primaryStep_bytes_eq r (Prev.runTotalsStep r acc) L).symm)
          (Prev.weightedStep_bytes_le r (Prev.primaryStep r (Prev.runTotalsStep r acc)) L)
      · exact le_trans (Prev.primaryStep_additions_le r (Prev.runTotalsStep r acc) L)
          (Prev.weightedStep_additions_le r (Prev.primaryStep r (Prev.runTotalsStep r acc)) L)
      · exact le_trans (Prev.primaryStep_deletions_le r (Prev.runTotalsStep r acc) L)
          (Prev.weightedStep_deletions_le r (Prev.primaryStep r (Prev.runTotalsStep r acc)) L)
      · intro hn
        exact le_trans (Prev.primaryStep_net_le r (Prev.runTotalsStep r acc) L hn)
          (Prev.weightedStep_net_le r (Prev.primaryStep r (Prev.runTotalsStep r acc)) L hn)
    · rw [if_neg hp]
      exact ⟨le_refl _, le_refl _, le_refl _, le_refl _, le_refl _, fun _ => le_refl _⟩
  · intro acc r L
    rw [Gen.processRecord]
    by_cases hc : r.commitCount = 0
    · rw [if_pos hc]
      exact ⟨le_refl _, le_refl _, le_refl _⟩
    · rw [if_neg hc]
      have h1 : (acc.stats L).commits ≤ ((Gen.primaryStep r acc).stats L).commits := by
        rw [Gen.primaryStep_stats_commits]
        exact Nat.le_add_right _ _
      rw [Gen.weightedStep]
      by_cases hT : 0 < Gen.totalSize r
      · rw [if_pos hT]
        refine ⟨?_, ?_, ?_⟩
        · rw [Gen.foldl_edgeStep_commits]
          exact le_trans h1 (Nat.le_add_right _ _)
        · rw [Gen.foldl_edgeStep_additions, Gen.primaryStep_stats_additions]
          exact Nat.le_add_right _ _
        · rw [Gen.foldl_edgeStep_deletions, Gen.primaryStep_stats_deletions]
          exact Nat.le_add_right _ _
      · rw [if_neg hT]
        exact ⟨h1, le_of_eq (Gen.primaryStep_stats_additions r acc L).symm,
          le_of_eq (Gen.primaryStep_stats_deletions r acc L).symm⟩

/-- C8 witness: the amended monotonicity applied to a concrete record
with non-negative net lines. -/
theorem C8_witness :
    (0 : Int) ≤ (⟨"o/r", false, false, some "A", [⟨"A", 10⟩], 10, [5], 7, 2, 5⟩ : Prev.Record).lineNet
      ∧ ((Prev.emptyAcc).langs.stats "A").net_lines
        ≤ ((Prev.processRecord ⟨true, true, 0⟩ Prev.emptyAcc
            ⟨"o/r", false, false, some "A", [⟨"A", 10⟩], 10, [5], 7, 2, 5⟩).langs.stats "A").net_lines :=
  ⟨by decide,
    (C8_monotonic_accumulators.1 ⟨true, true, 0⟩ Prev.emptyAcc
      ⟨"o/r", false, false, some "A", [⟨"A", 10⟩], 10, [5], 7, 2, 5⟩ "A").2.2.2.2.2 (by decide)⟩

/-- C10 witness: the claim evaluated on a record with bytes
`{A: 60, B: 40}` and commit count `10`. -/
theorem C10_witness :
    (⟨"A", 60⟩ : Gen.Edge) ∈ ([⟨"A", 60⟩, ⟨"B", 40⟩] : List Gen.Edge)
      ∧ ((([⟨"A", 60⟩, ⟨"B", 40⟩] : List Gen.Edge).map Gen.Edge.name).Nodup)
      ∧ 0 < Gen.totalSize ⟨some "A", [⟨"A", 60⟩, ⟨"B", 40⟩], 10⟩
      ∧ ((Gen.processRecord Gen.emptyAcc ⟨some "A", [⟨"A", 60⟩, ⟨"B", 40⟩], 10⟩).stats "A").additions
          = ((Gen.emptyAcc).stats "A").additions
            + (if 0 < Gen.edgeWeighted 10 (Gen.totalSize ⟨some "A", [⟨"A", 60⟩, ⟨"B", 40⟩], 10⟩) ⟨"A", 60⟩
               then 60 * 3 / 10 else 0) :=
  ⟨by decide, by decide, by decide,
    (C10_line_estimates Gen.emptyAcc ⟨some "A", [⟨"A", 60⟩, ⟨"B", 40⟩], 10⟩ ⟨"A", 60⟩
      (by decide) (by decide) (by decide) (by decide)).1⟩

namespace YearRanges

theorem lt_iff (t u : Instant) : t < u ↔ yr t < yr u ∨ (yr t = yr u ∧ sc t < sc u) :=
  Prod.Lex.lt_iff (ofLex t) (ofLex u)

theorem le_iff (t u : Instant) : t ≤ u ↔ yr t < yr u ∨ (yr t = yr u ∧ sc t ≤ sc u) :=
  Prod.Lex.le_iff (ofLex t) (ofLex u)

theorem yr_mkI (y : Int) (s : Nat) : yr (mkI y s) = y := rfl

theorem sc_mkI (y : Int) (s : Nat) : sc (mkI y s) = s := rfl

theorem yr_yearStartI (y : Int) : yr (yearStartI y) = y := rfl

theorem sc_yearStartI (y : Int) : sc (yearStartI y) = 0 := rfl

theorem yr_yearEndI (y : Int) : yr (yearEndI y) = y := rfl

theorem sc_yearEndI (y : Int) : sc (yearEndI y) = yearLen y - 1 := rfl

theorem yearLen_pos (y : Int) : 0 < yearLen y := by
  unfold yearLen
  split <;> norm_num

theorem wf_yearStartI (y : Int) : wf (yearStartI y) := yearLen_pos y

/-- A cursor at or past the end produces no further ranges. -/
theorem genAux_stop (e : Instant) (fuel : Nat) (cur : Instant) (h : ¬ cur < e) :
    genAux e fuel cur = [] := by
  cases fuel <;> simp [genAux, h]

/-- The head of a nonempty production starts at the cursor. -/
theorem genAux_head (e : Instant) :
    ∀ (fuel : Nat) (cur : Instant) (b : Instant × Instant),
      b ∈ (genAux e fuel cur).head? → b.1 = cur
  | 0, cur, b, hb => by simp [genAux] at hb
  | fuel + 1, cur, b, hb => by
      rw [genAux] at hb
      by_cases hlt : cur < e
      · rw [if_pos hlt] at hb
        simp only [List.head?_cons, Option.mem_def, Option.some.injEq] at hb
        rw [← hb]
      · rw [if_neg hlt] at hb
        simp at hb

/-- Every emitted range lies inside the window, is nonempty, and stays in
one calendar year. -/
theorem genAux_bounds (e : Instant) :
    ∀ (fuel : Nat) (cur : Instant), wf cur →
      ∀ r ∈ genAux e fuel cur, cur ≤ r.1 ∧ r.1 ≤ r.2 ∧ r.2 ≤ e ∧ yr r.1 = yr r.2
  | 0, cur, _, r, hr => absurd hr (by simp [genAux])
  | fuel + 1, cur, hcur, r, hr => by
      rw [genAux] at hr
      by_cases hlt : cur < e
      · rw [if_pos hlt] at hr
        rcases List.mem_cons.mp hr with rfl | hr
        · have hstart : cur ≤ yearEndI (yr cur) := by
            rw [le_iff]
            right
            simp only [yr_yearEndI, sc_yearEndI, true_and]
            have hp := yearLen_pos (yr cur)
            have hc : sc cur < yearLen (yr cur) := hcur
            omega
          have hyr2 : yr cur = yr (min (yearEndI (yr cur)) e) := by
            rcases le_total (yearEndI (yr cur)) e with hm | hm
            · rw [min_eq_left hm, yr_yearEndI]
            · rw [min_eq_right hm]
              have h1 := (le_iff e (yearEndI (yr cur))).mp hm
              have h2 := (lt_iff cur e).mp hlt
              simp only [yr_yearEndI, sc_yearEndI] at h1
              omega
          exact ⟨le_refl _, le_min hstart (le_of_lt hlt), min_le_right _ _, hyr2⟩
        · have htail := genAux_bounds e fuel (yearStartI (yr cur + 1)) (wf_yearStartI _) r hr
          refine ⟨le_trans ?_ htail.1, htail.2⟩
          rw [le_iff]
          left
          simp only [yr_yearStartI]
          omega
      · rw [if_neg hlt] at hr
        exact absurd hr (List.not_mem_nil r)

/-- The emitted ranges are strictly ordered and pairwise disjoint: each
range ends strictly before the next begins. -/
theorem genAux_chain (e : Instant) :
    ∀ (fuel : Nat) (cur : Instant),
      List.Chain' (fun a b => a.2 < b.1) (genAux e fuel cur)
  | 0, _ => by simp [genAux]
  | fuel + 1, cur => by
      rw [genAux]
      by_cases hlt : cur < e
      · rw [if_pos hlt, List.chain'_cons']
        refine ⟨?_, genAux_chain e fuel (yearStartI (yr cur + 1))⟩
        intro b hb
        rw [genAux_head e fuel _ b hb]
        refine lt_of_le_of_lt (min_le_left _ _) ?_
        rw [lt_iff]
        left
        simp only [yr_yearEndI, yr_yearStartI]
        omega
      · rw [if_neg hlt]
        exact List.chain'_nil

theorem intRange_cons (a b : Int) (h : a ≤ b) :
    intRange a b = a :: intRange (a + 1) b := by
  unfold intRange
  have h1 : (b - a + 1).toNat = (b - (a + 1) + 1).toNat + 1 := by omega
  rw [h1, List.range_succ_eq_map, List.map_cons, List.map_map]
  have h0 : a + ((0 : Nat) : Int) = a := by simp
  rw [h0]
  refine congrArg (a :: ·) (List.map_congr_left ?_)
  intro i _
  show a + ((i + 1 : Nat) : Int) = (a + 1) + (i : Int)
  push_cast
  ring

theorem intRange_singleton (a : Int) : intRange a a = [a] := by
  unfold intRange
  have h1 : (a - a + 1).toNat = 1 := by omega
  rw [h1]
  simp [List.range_succ]

theorem mem_intRange (a b y : Int) : y ∈ intRange a b ↔ a ≤ y ∧ y ≤ b := by
  unfold intRange
  simp only [List.mem_map, List.mem_range]
  constructor
  · rintro ⟨i, hi, rfl⟩
    omega
  · intro h
    exact ⟨(y - a).toNat, by omega, by omega⟩

theorem nodup_intRange (a b : Int) : (intRange a b).Nodup := by
  unfold intRange
  refine List.Nodup.map ?_ (List.nodup_range _)
  intro i j hij
  have h2 : a + (i : Int) = a + (j : Int) := hij
  omega

/-- The start years of the emitted ranges are exactly the consecutive
calendar years from the cursor's year to the last year intersecting the
half-open window. -/
theorem genAux_years (e : Instant) :
    ∀ (fuel : Nat) (cur : Instant), (yr e - yr cur).toNat < fuel →
      (genAux e fuel cur).map (fun r => yr r.1)
        = if cur < e then intRange (yr cur) (lastYear e) else []
  | 0, cur, hf => absurd hf (by omega)
  | fuel + 1, cur, hf => by
      by_cases hlt : cur < e
      · rw [genAux, if_pos hlt, if_pos hlt, List.map_cons]
        by_cases hnext : yearStartI (yr cur + 1) < e
        · have h2 := (lt_iff (yearStartI (yr cur + 1)) e).mp hnext
          simp only [yr_yearStartI, sc_yearStartI] at h2
          have hyr : yr cur + 1 ≤ yr e := by omega
          have hfuel2 : (yr e - yr (yearStartI (yr cur + 1))).toNat < fuel := by
            simp only [yr_yearStartI]
            omega
          rw [genAux_years e fuel _ hfuel2, if_pos hnext]
          have hcurle : yr cur ≤ lastYear e := by
            unfold lastYear
            split <;> omega
          rw [intRange_cons (yr cur) (lastYear e) hcurle]
          simp only [yr_yearStartI]
        · have h2 : e ≤ yearStartI (yr cur + 1) := not_lt.mp hnext
          have h3 := (le_iff e (yearStartI (yr cur + 1))).mp h2
          have h4 := (lt_iff cur e).mp hlt
          simp only [yr_yearStartI, sc_yearStartI] at h3
          rw [genAux_stop e fuel _ hnext]
          have hlast : lastYear e = yr cur := by
            unfold lastYear
            split <;> omega
          rw [hlast, intRange_singleton]
          rfl
      · rw [genAux, if_neg hlt, if_neg hlt]
        rfl

/-- Every well-formed instant of the half-open window is covered by some
emitted range. -/
theorem genAux_cover (e : Instant) :
    ∀ (fuel : Nat) (cur : Instant), (yr e - yr cur).toNat < fuel →
      ∀ t, wf t → cur ≤ t → t < e →
        ∃ r ∈ genAux e fuel cur, r.1 ≤ t ∧ t ≤ r.2
  | 0, _, hf => absurd hf (by omega)
  | fuel + 1, cur, hf => by
      intro t hwf hct hte
      have hlt : cur < e := lt_of_le_of_lt hct hte
      rw [genAux, if_pos hlt]
      by_cases hr0 : t ≤ min (yearEndI (yr cur)) e
      · exact ⟨(cur, min (yearEndI (yr cur)) e), List.mem_cons_self _ _, hct, hr0⟩
      · have hr0' : min (yearEndI (yr cur)) e < t := not_le.mp hr0
        have hy : yearEndI (yr cur) < t := by
          rcases le_total (yearEndI (yr cur)) e with hm | hm
          · rwa [min_eq_left hm] at hr0'
          · rw [min_eq_right hm] at hr0'
            exact absurd hte (not_lt.mpr (le_of_lt hr0'))
        have h1 := (lt_iff (yearEndI (yr cur)) t).mp hy
        simp only [yr_yearEndI, sc_yearEndI] at h1
        have hwf' : sc t < yearLen (yr t) := hwf
        have hyr : yr cur + 1 ≤ yr t := by
          rcases h1 with h1 | ⟨h1, h2⟩
          · omega
          · exfalso
            rw [← h1] at hwf'
            have := yearLen_pos (yr cur)
            omega
        have hnext_le : yearStartI (yr cur + 1) ≤ t := by
          rw [le_iff]
          simp only [yr_yearStartI, sc_yearStartI]
          omega
        have hyre : yr t ≤ yr e := by
          have h3 := (lt_iff t e).mp hte
          rcases h3 with h3 | ⟨h3, -⟩ <;> omega
        have hfuel2 : (yr e - yr (yearStartI (yr cur + 1))).toNat < fuel := by
          simp only [yr_yearStartI]
          omega
        rcases genAux_cover e fuel (yearStartI (yr cur + 1)) hfuel2 t hwf hnext_le hte with
          ⟨r, hrmem, hr⟩
        exact ⟨r, List.mem_cons_of_mem _ hrmem, hr⟩

/-- The calendar years listed by `intRange (yr s) (lastYear e)` (guarded
by `s < e`) are exactly the years containing a well-formed instant of the
half-open window `[s, e)`. -/
theorem touches_iff (s e : Instant) (hs : wf s) (y : Int) :
    (y ∈ (if s < e then intRange (yr s) (lastYear e) else []))
      ↔ ∃ t, wf t ∧ yr t = y ∧ s ≤ t ∧ t < e := by
  by_cases hlt : s < e
  · rw [if_pos hlt, mem_intRange]
    constructor
    · rintro ⟨h1, h2⟩
      by_cases hy : y = yr s
      · exact ⟨s, hs, hy.symm, le_refl s, hlt⟩
      · refine ⟨yearStartI y, wf_yearStartI y, yr_yearStartI y, le_of_lt ?_, ?_⟩
        · rw [lt_iff]
          left
          simp only [yr_yearStartI]
          omega
        · unfold lastYear at h2
          rw [lt_iff]
          simp only [yr_yearStartI, sc_yearStartI]
          have h4 := (lt_iff s e).mp hlt
          by_cases hsc : sc e = 0
          · rw [if_pos hsc] at h2
            omega
          · rw [if_neg hsc] at h2
            omega
    · rintro ⟨t, hwf, rfl, hst, hte⟩
      have h3 := (lt_iff t e).mp hte
      have h5 := (le_iff s t).mp hst
      constructor
      · omega
      · unfold lastYear
        split <;> omega
  · rw [if_neg hlt]
    simp only [List.not_mem_nil, false_iff]
    rintro ⟨t, -, rfl, hst, hte⟩
    exact hlt (lt_of_le_of_lt hst hte)

end YearRanges

/-- C7, counterexample.  The claim asserts that for every window with
`start ≤ end` the generated ranges contain exactly one sub-range per
calendar year the window touches and that their union covers the entire
window.  For the window from 2020-01-01T00:00:00 to 2021-01-01T00:00:00
(start ≤ end, both well formed) the closed window touches the two
calendar years 2020 and 2021, but the loop emits a single range
`[2020-01-01T00:00:00, 2020-12-31T23:59:59]`: no second sub-range exists
and the window's final instant is covered by no range. -/
theorem C7_counterexample :
    YearRanges.generateYearRanges (YearRanges.mkI 2020 0) (YearRanges.mkI 2021 0)
        = [(YearRanges.mkI 2020 0, YearRanges.mkI 2020 31622399)]
      ∧ YearRanges.mkI 2020 0 ≤ YearRanges.mkI 2021 0
      ∧ YearRanges.wf (YearRanges.mkI 2020 0)
      ∧ YearRanges.wf (YearRanges.mkI 2021 0)
      ∧ YearRanges.yr (YearRanges.mkI 2021 0) - YearRanges.yr (YearRanges.mkI 2020 0) + 1 = 2
      ∧ ((YearRanges.generateYearRanges (YearRanges.mkI 2020 0)
            (YearRanges.mkI 2021 0)).map (fun r => YearRanges.yr r.1)).length = 1
      ∧ ¬ ∃ r ∈ YearRanges.generateYearRanges (YearRanges.mkI 2020 0) (YearRanges.mkI 2021 0),
            r.1 ≤ YearRanges.mkI 2021 0 ∧ YearRanges.mkI 2021 0 ≤ r.2 := by
  refine ⟨by decide, by decide, by decide, by decide, by decide, by decide, by decide⟩

/-- C7 (amended): for every window with well-formed `start ≤ end` the
generated ranges are an ordered sequence of pairwise-disjoint, nonempty
sub-ranges of the closed window, each contained in a single calendar
year; there is exactly one sub-range per calendar year containing an
instant of the *half-open* window `[start, end)` (their start years are
exactly those consecutive years, without duplicates); and every
well-formed instant `t` with `start ≤ t < end` is covered by some range.
The `end` instant itself is omitted exactly when it is the first second
of a calendar year (see the counterexample). -/
theorem C7_year_ranges (s e : YearRanges.Instant)
    (hs : YearRanges.wf s) (he : YearRanges.wf e) (hse : s ≤ e) :
    (∀ r ∈ YearRanges.generateYearRanges s e,
        s ≤ r.1 ∧ r.1 ≤ r.2 ∧ r.2 ≤ e ∧ YearRanges.yr r.1 = YearRanges.yr r.2)
    ∧ List.Chain' (fun a b => a.2 < b.1) (YearRanges.generateYearRanges s e)
    ∧ ((YearRanges.generateYearRanges s e).map (fun r => YearRanges.yr r.1)
        = if s < e then YearRanges.intRange (YearRanges.yr s) (YearRanges.lastYear e) else [])
    ∧ ((YearRanges.generateYearRanges s e).map (fun r => YearRanges.yr r.1)).Nodup
    ∧ (∀ y : Int,
        (y ∈ (if s < e then YearRanges.intRange (YearRanges.yr s) (YearRanges.lastYear e)
                else []))
          ↔ ∃ t, YearRanges.wf t ∧ YearRanges.yr t = y ∧ s ≤ t ∧ t < e)
    ∧ (∀ t, YearRanges.wf t → s ≤ t → t < e →
        ∃ r ∈ YearRanges.generateYearRanges s e, r.1 ≤ t ∧ t ≤ r.2) := by
  refine ⟨?_, ?_, ?_, ?_, ?_, ?_⟩
  · exact fun r hr => YearRanges.genAux_bounds e _ s hs r hr
  · exact YearRanges.genAux_chain e _ s
  · exact YearRanges.genAux_years e _ s (Nat.lt_succ_self _)
  · rw [YearRanges.generateYearRanges,
      YearRanges.genAux_years e _ s (Nat.lt_succ_self _)]
    by_cases h : s < e
    · rw [if_pos h]
      exact YearRanges.nodup_intRange _ _
    · rw [if_neg h]
      exact List.nodup_nil
  · exact fun y => YearRanges.touches_iff s e hs y
  · exact fun t hwf hst hte =>
      YearRanges.genAux_cover e _ s (Nat.lt_succ_self _) t hwf hst hte

/-- C7 witness: the amended range description applied to the window from
2020 second 100 to 2022 second 5000. -/
theorem C7_witness :
    YearRanges.wf (YearRanges.mkI 2020 100)
      ∧ YearRanges.wf (YearRanges.mkI 2022 5000)
      ∧ YearRanges.mkI 2020 100 ≤ YearRanges.mkI 2022 5000
      ∧ ((YearRanges.generateYearRanges (YearRanges.mkI 2020 100)
            (YearRanges.mkI 2022 5000)).map (fun r => YearRanges.yr r.1)
          = if YearRanges.mkI 2020 100 < YearRanges.mkI 2022 5000
            then YearRanges.intRange (YearRanges.yr (YearRanges.mkI 2020 100))
              (YearRanges.lastYear (YearRanges.mkI 2022 5000))
            else []) :=
  ⟨by decide, by decide, by decide,
    (C7_year_ranges (YearRanges.mkI 2020 100) (YearRanges.mkI 2022 5000)
      (by decide) (by decide) (by decide)).2.2.1⟩
